import Mathlib

/-!
# BrewKernel / voidkernel: text console, palette controller and keyboard driver

A shallow embedding of `src/impl/x86_64/print.c` (BrewKernel) and of
`src/impl/kernel/main.c` (voidkernel), followed by the theorems that settle the
specification's claims about them.

Conventions of the embedding
* a C `char` / `uint8_t` is the natural number of its byte (0..255); `'\n'` is 10,
  `' '` is 32, the string terminator is 0;
* `size_t` index arithmetic is taken modulo `2^64`, `uint16_t` modulo `2^16`,
  `uint8_t` modulo `2^8`;
* the memory behind a pointer (`buffer`, `vga_buffer`, `key_buffer`) is a function
  from the element offset to the element, so that an access outside the declared
  extent is still an access, at an offset outside the extent;
* every C global is a field of one state record that the functions pass along;
* a `for` loop with a counter running over `lo .. hi-1` is a left fold over that range.
-/

namespace BrewKernel

/-! ## print.c : data model -/

/-- Screen width, `const static size_t NUM_COLS = 80`. -/
def NUM_COLS : Nat := 80

/-- Screen height, `const static size_t NUM_ROWS = 25`. -/
def NUM_ROWS : Nat := 25

/-- Number of values of a `size_t` on x86_64. -/
def SIZE_T : Nat := 2 ^ 64

/-- The cell of VGA memory, `struct Char`: a character byte and a colour byte. -/
structure Char where
  character : Nat
  color : Nat
deriving DecidableEq

/-- The globals of print.c: the cell memory behind `buffer`, the cursor `col`, `row`
and the current attribute `color`.  The field `accessed` is a ghost record of every
cell offset that was read or written through `buffer`, most recent first. -/
structure Console where
  buffer : Nat → Char
  col : Nat
  row : Nat
  color : Nat
  accessed : List Nat

/-- The offset `col + NUM_COLS * row` used to subscript `buffer`, in `size_t` arithmetic. -/
def cellIndex (col row : Nat) : Nat := (col + NUM_COLS * row) % SIZE_T

/-- The read `buffer[i]`: the value is `s.buffer i`, and the access is recorded. -/
def Console.touch (s : Console) (i : Nat) : Console :=
  { s with accessed := i :: s.accessed }

/-- The assignment `buffer[i] = v`. -/
def Console.store (s : Console) (i : Nat) (v : Char) : Console :=
  { s with buffer := fun j => if j = i then v else s.buffer j, accessed := i :: s.accessed }

/-- The loop `for (size_t i = lo; i < hi; i++) body`, as a fold over `lo .. hi-1`. -/
def forLoop {σ : Type} (lo hi : Nat) (body : Nat → σ → σ) (s : σ) : σ :=
  (List.range' lo (hi - lo)).foldl (fun st i => body i st) s

/-! ## print.c : screen management -/

/-- The function `clear_row(row)`: fill one row with spaces in the current colour. -/
def clear_row (s : Console) (row : Nat) : Console :=
  let empty : Char := { character := 32, color := s.color }
  forLoop 0 NUM_COLS (fun col st => st.store (cellIndex col row) empty) s

/-- The function `print_clear()`: clear every row. -/
def print_clear (s : Console) : Console :=
  forLoop 0 NUM_ROWS (fun i st => clear_row st i) s

/-- The function `print_newline()`: column 0 of the next row; on the last row the
screen is scrolled up by one row and the last row is cleared. -/
def print_newline (s : Console) : Console :=
  let s := { s with col := 0 }
  if s.row < NUM_ROWS - 1 then
    { s with row := s.row + 1 }
  else
    let s := forLoop 1 NUM_ROWS (fun row st =>
      forLoop 0 NUM_COLS (fun col st =>
        let character := st.buffer (cellIndex col row)
        (st.touch (cellIndex col row)).store (cellIndex col (row - 1)) character) st) s
    clear_row s (NUM_ROWS - 1)

/-! ## print.c : text output -/

/-- The function `print_char(character)`.  The increment `col++` cannot overflow: the
column is below `NUM_COLS` when it runs. -/
def print_char (s : Console) (character : Nat) : Console :=
  if character = 10 then
    print_newline s
  else
    let s := if s.col ≥ NUM_COLS then print_newline s else s
    let s := s.store (cellIndex s.col s.row) { character := character % 256, color := s.color }
    { s with col := s.col + 1 }

/-- The function `print_str(str)`: the bytes of `str` are printed up to the first zero
byte; the end of the list stands for the terminator of a string without a zero byte. -/
def print_str (s : Console) : List Nat → Console
  | [] => s
  | ch :: rest =>
    let character := ch % 256
    if character = 0 then s else print_str (print_char s character) rest

/-- The function `print_set_color(foreground, background)`; the sum is an `int` that the
assignment truncates to `uint8_t`. -/
def print_set_color (s : Console) (foreground background : Nat) : Console :=
  { s with color := (foreground + (background <<< 4)) % 256 }

/-! ## print.c : the operations as a transition system -/

/-- The start state of print.c: cursor at (0, 0) and the default attribute.  The video
memory content at boot and the value of the default attribute (its constants are
declared in print.h) are parameters. -/
def initial (memory : Nat → Char) (color : Nat) : Console :=
  { buffer := memory, col := 0, row := 0, color := color, accessed := [] }

/-- A call of one of the console operations. -/
inductive Op where
  | clear : Op
  | char : Nat → Op
  | str : List Nat → Op
  | newline : Op
  | set_color : Nat → Nat → Op

/-- The effect of one call. -/
def step (s : Console) : Op → Console
  | Op.clear => print_clear s
  | Op.char c => print_char s c
  | Op.str str => print_str s str
  | Op.newline => print_newline s
  | Op.set_color fg bg => print_set_color s fg bg

/-- The effect of a sequence of calls. -/
def run (s : Console) (ops : List Op) : Console := ops.foldl step s

/-- A sequence of `print_char` calls, one per character. -/
def print_chars (s : Console) (cs : List Nat) : Console := cs.foldl print_char s

/-! ## print.c : palette controller -/

/-- One port access: `inb(port)` returning `value`, or `outb(port, value)`. -/
inductive PortEvent where
  | inb : Nat → Nat → PortEvent
  | outb : Nat → Nat → PortEvent
deriving DecidableEq

/-- The loop `do { inb(0x3DA); } while (inb(0x3DA) & 8);` run on the values that the
successive reads of port 0x3DA return.  The result is the reads made, in order, and the
values not consumed; it is `none` when the values run out before the loop ends. -/
def retrace_wait : List Nat → Option (List PortEvent × List Nat)
  | first :: second :: rest =>
    if second &&& 8 ≠ 0 then
      match retrace_wait rest with
      | some (events, left) =>
        some (PortEvent.inb 0x3DA first :: PortEvent.inb 0x3DA second :: events, left)
      | none => none
    else
      some ([PortEvent.inb 0x3DA first, PortEvent.inb 0x3DA second], rest)
  | _ => none

/-- The function `print_set_palette_color(index, red, green, blue)` run on the values
`status` returned by the reads of port 0x3DA: all port accesses in order. -/
def print_set_palette_color (status : List Nat) (index red green blue : Nat) :
    Option (List PortEvent × List Nat) :=
  match retrace_wait status with
  | none => none
  | some (events, left) =>
    some (events ++
      [PortEvent.outb 0x3C8 index,
       PortEvent.outb 0x3C9 (red >>> 2),
       PortEvent.outb 0x3C9 (green >>> 2),
       PortEvent.outb 0x3C9 (blue >>> 2)], left)

/-- The port writes among a list of port accesses, as (port, value) pairs. -/
def port_writes : List PortEvent → List (Nat × Nat)
  | [] => []
  | PortEvent.outb port value :: rest => (port, value) :: port_writes rest
  | PortEvent.inb _ _ :: rest => port_writes rest

/-- Model of the colour table behind the palette ports (specification, section 6): a
write to the index port 0x3C8 selects an entry and restarts the component counter; each
write to the data port 0x3C9 stores the low six bits as the next component (red, green,
blue) of the selected entry, and the third one moves on to the next entry. -/
structure Dac where
  index : Nat
  component : Nat
  red : Nat → Nat
  green : Nat → Nat
  blue : Nat → Nat

/-- The effect of one port write on the colour table. -/
def Dac.write (d : Dac) (w : Nat × Nat) : Dac :=
  if w.1 = 0x3C8 then
    { d with index := w.2 % 256, component := 0 }
  else if w.1 = 0x3C9 then
    if d.component = 0 then
      { d with red := fun j => if j = d.index then w.2 % 64 else d.red j, component := 1 }
    else if d.component = 1 then
      { d with green := fun j => if j = d.index then w.2 % 64 else d.green j, component := 2 }
    else
      { d with blue := fun j => if j = d.index then w.2 % 64 else d.blue j,
               component := 0, index := (d.index + 1) % 256 }
  else d

/-- Readback of entry `i` of the colour table. -/
def Dac.read (d : Dac) (i : Nat) : Nat × Nat × Nat := (d.red i, d.green i, d.blue i)

/-! ## The layout the specification describes -/

/-- Reference layout state, written after the words of the specification: the cells
laid out so far and the place after the last character. -/
structure Layout where
  cells : Nat → Char
  col : Nat
  row : Nat

/-- Reference layout of one more character: a newline moves to column 0 of the next
row; any other character that would land at column 80 goes to column 0 of the next row,
and is placed with attribute `attr`. -/
def Layout.place (attr : Nat) (l : Layout) (c : Nat) : Layout :=
  if c = 10 then
    { l with col := 0, row := l.row + 1 }
  else if l.col = 80 then
    { cells := fun j => if j = 0 + 80 * (l.row + 1) then ⟨c, attr⟩ else l.cells j,
      col := 1, row := l.row + 1 }
  else
    { cells := fun j => if j = l.col + 80 * l.row then ⟨c, attr⟩ else l.cells j,
      col := l.col + 1, row := l.row }

/-- Reference layout of a sequence: left to right, top to bottom from (0, 0), every
cell not written holding a space with attribute `attr`. -/
def reference_layout (attr : Nat) (str : List Nat) : Layout :=
  str.foldl (Layout.place attr) { cells := fun _ => ⟨32, attr⟩, col := 0, row := 0 }

end BrewKernel

namespace VoidKernel

/-! ## voidkernel main.c : counter-based console and keyboard driver -/

/-- The globals of main.c that the keyboard path uses: the cell memory behind
`vga_buffer`, the `static uint16_t cursor_position` of `kernel_puts` (here
`puts_cursor_position`), the memory behind `key_buffer` (declared with 256 entries) and
the global `uint16_t cursor_position`.  The field `key_writes` is a ghost record of the
offsets written through `key_buffer`, most recent first. -/
structure Kernel where
  vga_buffer : Nat → Nat
  puts_cursor_position : Nat
  key_buffer : Nat → Nat
  cursor_position : Nat
  key_writes : List Nat

/-- The function `kernel_puts(str)` on the bytes found from `str` on, up to the first
zero byte (the end of the list stands for it).  The `char` is sign-extended before it is
or-ed with 0x0F00 and truncated to 16 bits. -/
def kernel_puts (s : Kernel) : List Nat → Kernel
  | [] => s
  | c :: rest =>
    if c = 0 then s
    else if c = 10 then
      kernel_puts
        { s with puts_cursor_position :=
                   (s.puts_cursor_position + (80 - s.puts_cursor_position % 80)) % 65536 } rest
    else
      let cell := if c < 128 then (0x0F00 ||| c) % 65536 else (0xFF00 ||| c) % 65536
      kernel_puts
        { s with vga_buffer := fun j => if j = s.puts_cursor_position then cell else s.vga_buffer j,
                 puts_cursor_position := (s.puts_cursor_position + 1) % 65536 } rest

/-- The table `keyboard_map[128]`; the entries not listed in the initialiser are 0. -/
def keyboard_map : List Nat :=
  [0, 27, 49, 50, 51, 52, 53, 54, 55, 56, 57, 48, 45, 61, 8,
   9, 113, 119, 101, 114, 116, 121, 117, 105, 111, 112, 91, 93, 10,
   0, 97, 115, 100, 102, 103, 104, 106, 107, 108, 59, 39, 96, 0,
   92, 122, 120, 99, 118, 98, 110, 109, 44, 46, 47, 0,
   42, 0, 32, 0, 0, 0, 0, 0, 0, 0, 0, 0, 0, 0, 0, 0, 0,
   0, 0, 0, 0, 0, 0, 0, 0, 0] ++ List.replicate 47 0

/-- The function `keyboard_handler()`, on the byte `scancode` that `inb(KBD_PORT)`
returns.  The echo is `kernel_puts(&c)` with `c` a single local `char`: the callee reads
on from the address of `c` until it meets a zero byte, so what it prints is `c` followed
by the bytes `after` that lie behind `c` in memory before the first zero byte. -/
def keyboard_handler (s : Kernel) (scancode : Nat) (after : List Nat) : Kernel :=
  if scancode &&& 0x80 ≠ 0 then
    s
  else
    let c := keyboard_map.getD scancode 0
    if c ≠ 0 then
      let s := { s with key_buffer := fun j => if j = s.cursor_position then c else s.key_buffer j,
                        key_writes := s.cursor_position :: s.key_writes,
                        cursor_position := (s.cursor_position + 1) % 65536 }
      let s := { s with key_buffer := fun j => if j = s.cursor_position then 0 else s.key_buffer j,
                        key_writes := s.cursor_position :: s.key_writes }
      kernel_puts s (c :: after)
    else
      s

end VoidKernel

namespace BrewKernel

/-! ## Predicates and notions used to state the properties -/

/-- The invariant of the console state: the column is at most 80 (it is 80 exactly when
a row has just been filled), the row is below 25, and every recorded access to `buffer`
is at an offset below 2000. -/
def Inv (s : Console) : Prop :=
  s.col ≤ 80 ∧ s.row < 25 ∧ ∀ k ∈ s.accessed, k < 2000

/-- The text that prints the given lines separated by newlines, without a trailing
newline. -/
def join_lines : List (List Nat) → List Nat
  | [] => []
  | [l] => l
  | l :: rest => l ++ 10 :: join_lines rest

/-- The character expected at column `k` of screen row `i` once the lines `ls` have
been printed: the screen shows the last 25 lines, each followed by spaces. -/
def shown (ls : List (List Nat)) (i k : Nat) : Nat :=
  (ls.getD (ls.length - 25 + i) []).getD k 32

/-- A concrete start state: zeroed video memory and the attribute 0x0F (white on
black). -/
def boot : Console := initial (fun _ => ⟨0, 0⟩) 15

end BrewKernel

namespace VoidKernel

/-- A concrete state of the keyboard path: blank memories and both cursors at 0. -/
def start : Kernel :=
  { vga_buffer := fun _ => 0, puts_cursor_position := 0, key_buffer := fun _ => 0,
    cursor_position := 0, key_writes := [] }

end VoidKernel

namespace VoidKernel

/-! ## voidkernel main.c : interrupt table -/

/-- Number of entries of the table, `#define IDT_SIZE 256`. -/
def IDT_SIZE : Nat := 256

/-- The keyboard vector, `#define IRQ1 33`. -/
def IRQ1 : Nat := 33

/-- One descriptor, `struct IDTEntry` (packed). -/
structure IDTEntry where
  base_low : Nat
  sel : Nat
  always0 : Nat
  flags : Nat
  base_high : Nat
deriving DecidableEq

/-- The size `sizeof(struct IDTEntry)` of the packed structure: 2 + 2 + 1 + 1 + 2 bytes. -/
def sizeof_IDTEntry : Nat := 8

/-- The table descriptor, `struct IDTPtr`. -/
structure IDTPtr where
  limit : Nat
  base : Nat
deriving DecidableEq

/-- The globals of the interrupt path: the memory behind `idt` (declared with 256
entries), the descriptor `idt_ptr`, and the descriptors handed to `load_idt`, most
recent first. -/
structure Interrupts where
  idt : Nat → IDTEntry
  idt_ptr : IDTPtr
  loaded : List IDTPtr

/-- The function `set_idt_entry(num, base, sel, flags)`, for a vector number that is not
negative; `base` is a 64-bit `uintptr_t` and the two halves are truncated to 16 bits. -/
def set_idt_entry (s : Interrupts) (num base sel flags : Nat) : Interrupts :=
  { s with idt := fun j =>
      if j = num then
        { base_low := (base &&& 0xFFFF) % 65536,
          base_high := ((base >>> 16) &&& 0xFFFF) % 65536,
          sel := sel,
          always0 := 0,
          flags := flags }
      else s.idt j }

/-- Modelled from the spec: `load_idt` is an assembly routine outside the C sources; it
is the single privileged operation that loads the base address and size found in the
descriptor it is given into the processor's interrupt-table register.  Here the
descriptor it is given is recorded. -/
def load_idt (s : Interrupts) (descriptor : IDTPtr) : Interrupts :=
  { s with loaded := descriptor :: s.loaded }

/-- The function `init_idt()`.  The addresses `&idt` and `keyboard_handler`, fixed at
link time, are the parameters `idt_address` and `handler_address`. -/
def init_idt (s : Interrupts) (idt_address handler_address : Nat) : Interrupts :=
  let s := { s with
    idt_ptr := { s.idt_ptr with limit := (sizeof_IDTEntry * IDT_SIZE - 1) % 65536 } }
  let s := { s with idt_ptr := { s.idt_ptr with base := idt_address } }
  let s := set_idt_entry s IRQ1 handler_address 0x08 0x8E
  load_idt s s.idt_ptr

/-- A concrete state of the interrupt path at boot: a table of zero entries, as a C
global is, and nothing loaded. -/
def zero_table : Interrupts :=
  { idt := fun _ => ⟨0, 0, 0, 0, 0⟩, idt_ptr := ⟨0, 0⟩, loaded := [] }

/-- A concrete state of the interrupt path with prior content: every entry holds
base_low = 1. -/
def used_table : Interrupts :=
  { idt := fun _ => ⟨1, 0, 0, 0, 0⟩, idt_ptr := ⟨0, 0⟩, loaded := [] }

/-! ## Keyboard events -/

/-- A sequence of keyboard interrupts: for each one the scancode read from the port and
the bytes lying behind the handler's local `c` at that time. -/
def keyboard_run (s : Kernel) (events : List (Nat × List Nat)) : Kernel :=
  events.foldl (fun st e => keyboard_handler st e.1 e.2) s

/-- The character of a mapped press event: the map entry of a scancode with bit 7
clear, when it is not 0. -/
def mapped_press (scancode : Nat) : Option Nat :=
  if scancode &&& 0x80 ≠ 0 then none
  else if keyboard_map.getD scancode 0 ≠ 0 then some (keyboard_map.getD scancode 0)
  else none

/-- The characters of the mapped press events of a sequence, in arrival order. -/
def mapped_chars (events : List (Nat × List Nat)) : List Nat :=
  events.filterMap (fun e => mapped_press e.1)

/-- The state of the input buffer after the mapped characters `chars` have arrived, as
long as the write cursor has not wrapped: the write cursor is their number, the buffer
holds them followed by zero bytes, every write so far was at an offset up to their
number, and the last terminator was written at that offset. -/
def KeyInv (s : Kernel) (chars : List Nat) : Prop :=
  s.cursor_position = chars.length ∧
  (∀ i, s.key_buffer i = chars.getD i 0) ∧
  (∀ k ∈ s.key_writes, k ≤ chars.length) ∧
  (chars ≠ [] → chars.length ∈ s.key_writes)

/-! ## Where the two consoles place the characters of a string -/

/-- The cell offsets at which `kernel_puts` stores the successive characters of a
string: for each character other than newline, the value of its cursor when
`vga_buffer[cursor_position++]` is assigned. -/
def kernel_cells (s : Kernel) : List Nat → List Nat
  | [] => []
  | c :: rest =>
    if c = 0 then []
    else if c = 10 then kernel_cells (kernel_puts s [c]) rest
    else s.puts_cursor_position :: kernel_cells (kernel_puts s [c]) rest

end VoidKernel

namespace BrewKernel

/-- The cell offsets at which `print_str` stores the successive characters of a
string: for each character other than newline, the offset of the store that
`print_char` makes, read from the record of accesses. -/
def console_cells (s : Console) : List Nat → List Nat
  | [] => []
  | ch :: rest =>
    let character := ch % 256
    if character = 0 then []
    else if character = 10 then console_cells (print_char s character) rest
    else (print_char s character).accessed.headD 0 :: console_cells (print_char s character) rest

/-- Every newline of the string comes after a line whose length is not a multiple of
80; `m` is the length of the part of the current line that lies before the string. -/
def newlines_off_boundary : Nat → List Nat → Prop
  | _, [] => True
  | m, c :: rest =>
    if c = 10 then m % 80 ≠ 0 ∧ newlines_off_boundary 0 rest
    else newlines_off_boundary (m + 1) rest

end BrewKernel

namespace BrewKernel

/-! ## Loops -/

theorem forLoop_succ {σ : Type} (lo hi : Nat) (body : Nat → σ → σ) (s : σ) (h : lo ≤ hi) :
    forLoop lo (hi + 1) body s = body hi (forLoop lo hi body s) := by
  unfold forLoop
  have e : hi + 1 - lo = (hi - lo) + 1 := by omega
  rw [e, List.range'_1_concat, List.foldl_append]
  have e2 : lo + (hi - lo) = hi := by omega
  simp [e2]

theorem forLoop_self {σ : Type} (lo : Nat) (body : Nat → σ → σ) (s : σ) :
    forLoop lo lo body s = s := by
  simp [forLoop]

/-- Loop invariant rule: a property that holds on entry and is kept by every iteration
holds on exit. -/
theorem forLoop_inv {σ : Type} (P : Nat → σ → Prop) (lo hi : Nat) (body : Nat → σ → σ) (s : σ)
    (h : lo ≤ hi) (h0 : P lo s)
    (hs : ∀ i st, lo ≤ i → i < hi → P i st → P (i + 1) (body i st)) :
    P hi (forLoop lo hi body s) := by
  induction hi, h using Nat.le_induction with
  | base => rw [forLoop_self]; exact h0
  | succ n hn ih =>
    rw [forLoop_succ lo n body s hn]
    exact hs n _ hn (Nat.lt_succ_self n) (ih (fun i st h1 h2 hp => hs i st h1 (by omega) hp))

end BrewKernel

namespace BrewKernel

/-! ## Cell offsets -/

theorem cellIndex_small (col row : Nat) (hc : col ≤ 80) (hr : row < 25) :
    cellIndex col row = col + 80 * row := by
  unfold cellIndex NUM_COLS SIZE_T
  apply Nat.mod_eq_of_lt
  omega

@[simp]
theorem store_col (s : Console) (i : Nat) (v : Char) : (s.store i v).col = s.col := rfl
@[simp]
theorem store_row (s : Console) (i : Nat) (v : Char) : (s.store i v).row = s.row := rfl
@[simp]
theorem store_color (s : Console) (i : Nat) (v : Char) :
    (s.store i v).color = s.color := rfl
@[simp]
theorem store_buffer (s : Console) (i : Nat) (v : Char) (j : Nat) :
    (s.store i v).buffer j = if j = i then v else s.buffer j := rfl
@[simp]
theorem store_accessed (s : Console) (i : Nat) (v : Char) :
    (s.store i v).accessed = i :: s.accessed := rfl
@[simp]
theorem touch_col (s : Console) (i : Nat) : (s.touch i).col = s.col := rfl
@[simp]
theorem touch_row (s : Console) (i : Nat) : (s.touch i).row = s.row := rfl
@[simp]
theorem touch_color (s : Console) (i : Nat) : (s.touch i).color = s.color := rfl
@[simp]
theorem touch_buffer (s : Console) (i : Nat) : (s.touch i).buffer = s.buffer := rfl
@[simp]
theorem touch_accessed (s : Console) (i : Nat) :
    (s.touch i).accessed = i :: s.accessed := rfl

/-! ## clear_row -/

/-- What `clear_row` does to a row of the screen: the 80 cells of the row become
spaces in the current colour, nothing else changes, and only those cells are accessed. -/
theorem clear_row_spec (s : Console) (r : Nat) (hr : r < 25) :
    (clear_row s r).col = s.col ∧ (clear_row s r).row = s.row ∧
    (clear_row s r).color = s.color ∧
    (∀ j, (clear_row s r).buffer j =
      if 80 * r ≤ j ∧ j < 80 * r + 80 then ⟨32, s.color⟩ else s.buffer j) ∧
    (∀ k ∈ (clear_row s r).accessed, k ∈ s.accessed ∨ k < 2000) := by
  unfold clear_row
  have key := forLoop_inv
    (fun (i : Nat) (st : Console) =>
      st.col = s.col ∧ st.row = s.row ∧ st.color = s.color ∧
      (∀ j, st.buffer j = if 80 * r ≤ j ∧ j < 80 * r + i then ⟨32, s.color⟩ else s.buffer j) ∧
      (∀ k ∈ st.accessed, k ∈ s.accessed ∨ k < 2000))
    0 NUM_COLS (fun col st => st.store (cellIndex col r) ⟨32, s.color⟩) s (Nat.zero_le _)
    ?_ ?_
  · exact key
  · refine ⟨rfl, rfl, rfl, ?_, ?_⟩
    · intro j
      have : ¬ (80 * r ≤ j ∧ j < 80 * r + 0) := by omega
      rw [if_neg this]
    · intro k hk; exact Or.inl hk
  · intro i st _ hi ⟨h1, h2, h3, h4, h5⟩
    have hi80 : i < 80 := hi
    have hidx : cellIndex i r = i + 80 * r := cellIndex_small i r (by omega) hr
    refine ⟨by simp [h1], by simp [h2], by simp [h3], ?_, ?_⟩
    · intro j
      simp only [store_buffer, hidx]
      by_cases hj : j = i + 80 * r
      · have : 80 * r ≤ j ∧ j < 80 * r + (i + 1) := by omega
        rw [if_pos hj, if_pos this]
      · rw [if_neg hj, h4 j]
        by_cases hin : 80 * r ≤ j ∧ j < 80 * r + i
        · have : 80 * r ≤ j ∧ j < 80 * r + (i + 1) := by omega
          rw [if_pos hin, if_pos this]
        · have : ¬ (80 * r ≤ j ∧ j < 80 * r + (i + 1)) := by omega
          rw [if_neg hin, if_neg this]
    · intro k hk
      simp only [store_accessed, List.mem_cons] at hk
      rcases hk with hk | hk
      · right; rw [hk, hidx]; omega
      · exact h5 k hk

end BrewKernel

namespace BrewKernel

/-! ## print_clear -/

/-- What `print_clear` does: the 2000 cells of the screen become spaces in the current
colour; the cursor, the colour and the memory beyond the screen are unchanged. -/
theorem print_clear_spec (s : Console) :
    (print_clear s).col = s.col ∧ (print_clear s).row = s.row ∧
    (print_clear s).color = s.color ∧
    (∀ j, (print_clear s).buffer j = if j < 2000 then ⟨32, s.color⟩ else s.buffer j) ∧
    (∀ k ∈ (print_clear s).accessed, k ∈ s.accessed ∨ k < 2000) := by
  unfold print_clear
  have key := forLoop_inv
    (fun (i : Nat) (st : Console) =>
      st.col = s.col ∧ st.row = s.row ∧ st.color = s.color ∧
      (∀ j, st.buffer j = if j < 80 * i then ⟨32, s.color⟩ else s.buffer j) ∧
      (∀ k ∈ st.accessed, k ∈ s.accessed ∨ k < 2000))
    0 NUM_ROWS (fun i st => clear_row st i) s (Nat.zero_le _) ?_ ?_
  · exact key
  · refine ⟨rfl, rfl, rfl, ?_, ?_⟩
    · intro j
      have : ¬ j < 80 * 0 := by omega
      rw [if_neg this]
    · intro k hk; exact Or.inl hk
  · intro i st _ hi ⟨h1, h2, h3, h4, h5⟩
    have hi25 : i < 25 := hi
    obtain ⟨c1, c2, c3, c4, c5⟩ := clear_row_spec st i hi25
    refine ⟨c1.trans h1, c2.trans h2, c3.trans h3, ?_, ?_⟩
    · intro j
      rw [c4 j, h3, h4 j]
      by_cases hin : 80 * i ≤ j ∧ j < 80 * i + 80
      · have : j < 80 * (i + 1) := by omega
        rw [if_pos hin, if_pos this]
      · rw [if_neg hin]
        by_cases hlt : j < 80 * i
        · have : j < 80 * (i + 1) := by omega
          rw [if_pos hlt, if_pos this]
        · have : ¬ j < 80 * (i + 1) := by omega
          rw [if_neg hlt, if_neg this]
    · intro k hk
      rcases c5 k hk with hk | hk
      · exact h5 k hk
      · exact Or.inr hk

/-! ## print_newline -/

/-- The inner loop of the scroll: row `row` is copied into row `row - 1`. -/
theorem scroll_row_spec (st0 : Console) (row : Nat) (h1 : 1 ≤ row) (h25 : row < 25) :
    let st := forLoop 0 NUM_COLS (fun col st =>
        let character := st.buffer (cellIndex col row)
        (st.touch (cellIndex col row)).store (cellIndex col (row - 1)) character) st0
    st.col = st0.col ∧ st.row = st0.row ∧ st.color = st0.color ∧
    (∀ j, st.buffer j =
      if 80 * (row - 1) ≤ j ∧ j < 80 * row then st0.buffer (j + 80) else st0.buffer j) ∧
    (∀ k ∈ st.accessed, k ∈ st0.accessed ∨ k < 2000) := by
  intro st
  have key := forLoop_inv
    (fun (i : Nat) (st : Console) =>
      st.col = st0.col ∧ st.row = st0.row ∧ st.color = st0.color ∧
      (∀ j, st.buffer j =
        if 80 * (row - 1) ≤ j ∧ j < 80 * (row - 1) + i then st0.buffer (j + 80)
        else st0.buffer j) ∧
      (∀ k ∈ st.accessed, k ∈ st0.accessed ∨ k < 2000))
    0 NUM_COLS (fun col st =>
        let character := st.buffer (cellIndex col row)
        (st.touch (cellIndex col row)).store (cellIndex col (row - 1)) character) st0
    (Nat.zero_le _) ?_ ?_
  · obtain ⟨k1, k2, k3, k4, k5⟩ := key
    refine ⟨k1, k2, k3, ?_, k5⟩
    intro j
    rw [k4 j]
    have e : 80 * (row - 1) + NUM_COLS = 80 * row := by unfold NUM_COLS; omega
    rw [e]
  · refine ⟨rfl, rfl, rfl, ?_, ?_⟩
    · intro j
      have : ¬ (80 * (row - 1) ≤ j ∧ j < 80 * (row - 1) + 0) := by omega
      rw [if_neg this]
    · intro k hk; exact Or.inl hk
  · intro i st _ hi ⟨g1, g2, g3, g4, g5⟩
    have hi80 : i < 80 := hi
    have hsrc : cellIndex i row = i + 80 * row := cellIndex_small i row (by omega) h25
    have hdst : cellIndex i (row - 1) = i + 80 * (row - 1) :=
      cellIndex_small i (row - 1) (by omega) (by omega)
    refine ⟨g1, g2, g3, ?_, ?_⟩
    · intro j
      simp only [store_buffer, touch_buffer, hsrc, hdst]
      by_cases hj : j = i + 80 * (row - 1)
      · have a : 80 * (row - 1) ≤ j ∧ j < 80 * (row - 1) + (i + 1) := by omega
        have b : ¬ (80 * (row - 1) ≤ i + 80 * row ∧ i + 80 * row < 80 * (row - 1) + i) := by
          omega
        have c : j + 80 = i + 80 * row := by omega
        rw [if_pos hj, if_pos a, g4 (i + 80 * row), if_neg b, c]
      · rw [if_neg hj, g4 j]
        by_cases hin : 80 * (row - 1) ≤ j ∧ j < 80 * (row - 1) + i
        · have : 80 * (row - 1) ≤ j ∧ j < 80 * (row - 1) + (i + 1) := by omega
          rw [if_pos hin, if_pos this]
        · have : ¬ (80 * (row - 1) ≤ j ∧ j < 80 * (row - 1) + (i + 1)) := by omega
          rw [if_neg hin, if_neg this]
    · intro k hk
      simp only [store_accessed, touch_accessed, List.mem_cons] at hk
      rcases hk with hk | hk | hk
      · right; rw [hk, hdst]; omega
      · right; rw [hk, hsrc]; omega
      · exact g5 k hk

/-- The two nested loops of the scroll: every cell of rows 0..23 receives the cell one
row below; row 24 and the memory beyond the screen are unchanged. -/
theorem scroll_loops_spec (s : Console) :
    let st := forLoop 1 NUM_ROWS (fun row st =>
      forLoop 0 NUM_COLS (fun col st =>
        let character := st.buffer (cellIndex col row)
        (st.touch (cellIndex col row)).store (cellIndex col (row - 1)) character) st) s
    st.col = s.col ∧ st.row = s.row ∧ st.color = s.color ∧
    (∀ j, st.buffer j = if j < 1920 then s.buffer (j + 80) else s.buffer j) ∧
    (∀ k ∈ st.accessed, k ∈ s.accessed ∨ k < 2000) := by
  intro st
  have key := forLoop_inv
    (fun (row : Nat) (st : Console) =>
      st.col = s.col ∧ st.row = s.row ∧ st.color = s.color ∧
      (∀ j, st.buffer j = if j < 80 * (row - 1) then s.buffer (j + 80) else s.buffer j) ∧
      (∀ k ∈ st.accessed, k ∈ s.accessed ∨ k < 2000))
    1 NUM_ROWS (fun row st =>
      forLoop 0 NUM_COLS (fun col st =>
        let character := st.buffer (cellIndex col row)
        (st.touch (cellIndex col row)).store (cellIndex col (row - 1)) character) st) s
    (by unfold NUM_ROWS; omega) ?_ ?_
  · exact key
  · refine ⟨rfl, rfl, rfl, ?_, ?_⟩
    · intro j
      have : ¬ j < 80 * (1 - 1) := by omega
      rw [if_neg this]
    · intro k hk; exact Or.inl hk
  · intro row st0 hr1 hr ⟨g1, g2, g3, g4, g5⟩
    have hr25 : row < 25 := hr
    obtain ⟨c1, c2, c3, c4, c5⟩ := scroll_row_spec st0 row hr1 hr25
    refine ⟨c1.trans g1, c2.trans g2, c3.trans g3, ?_, ?_⟩
    · intro j
      have c4j := c4 j
      simp only at c4j
      rw [c4j]
      by_cases hin : 80 * (row - 1) ≤ j ∧ j < 80 * row
      · have a : j < 80 * (row + 1 - 1) := by omega
        have b : ¬ j + 80 < 80 * (row - 1) := by omega
        rw [if_pos hin, if_pos a, g4 (j + 80), if_neg b]
      · rw [if_neg hin, g4 j]
        by_cases hlt : j < 80 * (row - 1)
        · have : j < 80 * (row + 1 - 1) := by omega
          rw [if_pos hlt, if_pos this]
        · have : ¬ j < 80 * (row + 1 - 1) := by omega
          rw [if_neg hlt, if_neg this]
    · intro k hk
      rcases c5 k hk with hk | hk
      · exact g5 k hk
      · exact Or.inr hk

/-- The call `print_newline()` on a row before the last one. -/
theorem print_newline_advance (s : Console) (h : s.row < 24) :
    print_newline s = { s with col := 0, row := s.row + 1 } := by
  unfold print_newline
  have : s.row < NUM_ROWS - 1 := h
  simp [this]

/-- The call `print_newline()` on the last row: the screen scrolls. -/
theorem print_newline_scroll (s : Console) (h : ¬ s.row < 24) :
    (print_newline s).col = 0 ∧ (print_newline s).row = s.row ∧
    (print_newline s).color = s.color ∧
    (∀ j, (print_newline s).buffer j =
      if j < 1920 then s.buffer (j + 80)
      else if j < 2000 then ⟨32, s.color⟩ else s.buffer j) ∧
    (∀ k ∈ (print_newline s).accessed, k ∈ s.accessed ∨ k < 2000) := by
  unfold print_newline
  have hn : ¬ s.row < NUM_ROWS - 1 := h
  simp only [hn, if_false]
  obtain ⟨g1, g2, g3, g4, g5⟩ := scroll_loops_spec { s with col := 0 }
  obtain ⟨c1, c2, c3, c4, c5⟩ := clear_row_spec
    (forLoop 1 NUM_ROWS (fun row st =>
      forLoop 0 NUM_COLS (fun col st =>
        let character := st.buffer (cellIndex col row)
        (st.touch (cellIndex col row)).store (cellIndex col (row - 1)) character) st)
      { s with col := 0 }) (NUM_ROWS - 1) (by unfold NUM_ROWS; omega)
  refine ⟨c1.trans g1, c2.trans g2, c3.trans g3, ?_, ?_⟩
  · intro j
    rw [c4 j, g3, g4 j]
    have e : NUM_ROWS - 1 = 24 := rfl
    rw [e]
    by_cases hin : 80 * 24 ≤ j ∧ j < 80 * 24 + 80
    · have a : ¬ j < 1920 := by omega
      have b : j < 2000 := by omega
      rw [if_pos hin, if_neg a, if_pos b]
    · rw [if_neg hin]
      by_cases hlt : j < 1920
      · rw [if_pos hlt, if_pos hlt]
      · have b : ¬ j < 2000 := by omega
        rw [if_neg hlt, if_neg hlt, if_neg b]
  · intro k hk
    rcases c5 k hk with hk | hk
    · exact g5 k hk
    · exact Or.inr hk

end BrewKernel

namespace BrewKernel

/-! ## print_char -/

/-- The call `print_char(c)` for a character other than newline, before the end of the
row: one store at the cursor, and the column advances. -/
theorem print_char_inline (s : Console) (c : Nat) (hc : c ≠ 10) (hcol : s.col < 80) :
    print_char s c =
      { s.store (cellIndex s.col s.row) ⟨c % 256, s.color⟩ with col := s.col + 1 } := by
  unfold print_char
  have : ¬ s.col ≥ NUM_COLS := by unfold NUM_COLS; omega
  simp [hc, this]

/-- The call `print_char(c)` for a character other than newline, at the end of the
row: a newline first, then the store at column 0. -/
theorem print_char_wrap (s : Console) (c : Nat) (hc : c ≠ 10) (hcol : 80 ≤ s.col) :
    print_char s c =
      { (print_newline s).store (cellIndex (print_newline s).col (print_newline s).row)
          ⟨c % 256, (print_newline s).color⟩ with col := (print_newline s).col + 1 } := by
  unfold print_char
  have : s.col ≥ NUM_COLS := hcol
  simp [hc, this]

theorem print_char_newline (s : Console) : print_char s 10 = print_newline s := by
  unfold print_char
  simp

/-- The cursor after `print_newline()` and what it preserves. -/
theorem print_newline_cursor (s : Console) :
    (print_newline s).col = 0 ∧ (print_newline s).color = s.color ∧
    (s.row < 24 → (print_newline s).row = s.row + 1 ∧ (print_newline s).buffer = s.buffer ∧
      (print_newline s).accessed = s.accessed) ∧
    (¬ s.row < 24 → (print_newline s).row = s.row) ∧
    (∀ k ∈ (print_newline s).accessed, k ∈ s.accessed ∨ k < 2000) := by
  by_cases h : s.row < 24
  · rw [print_newline_advance s h]
    refine ⟨rfl, rfl, fun _ => ⟨rfl, rfl, rfl⟩, fun h2 => absurd h h2, ?_⟩
    intro k hk; exact Or.inl hk
  · obtain ⟨a, b, c, _, e⟩ := print_newline_scroll s h
    exact ⟨a, c, fun h2 => absurd h2 h, fun _ => b, e⟩

/-! ## The invariant of the console -/

theorem inv_initial (memory : Nat → Char) (color : Nat) : Inv (initial memory color) := by
  refine ⟨by simp [initial], by simp [initial], ?_⟩
  intro k hk
  simp [initial] at hk

theorem inv_print_newline (s : Console) (h : Inv s) : Inv (print_newline s) := by
  obtain ⟨h1, h2, h3⟩ := h
  obtain ⟨a, _, c, d, e⟩ := print_newline_cursor s
  refine ⟨by omega, ?_, ?_⟩
  · by_cases hr : s.row < 24
    · have := (c hr).1; omega
    · have := d hr; omega
  · intro k hk
    rcases e k hk with hk | hk
    · exact h3 k hk
    · exact hk

theorem inv_print_char (s : Console) (c : Nat) (h : Inv s) : Inv (print_char s c) := by
  by_cases hc : c = 10
  · rw [hc, print_char_newline]; exact inv_print_newline s h
  · by_cases hcol : s.col < 80
    · rw [print_char_inline s c hc hcol]
      obtain ⟨h1, h2, h3⟩ := h
      refine ⟨by simp; omega, by simpa using h2, ?_⟩
      intro k hk
      simp only [store_accessed, List.mem_cons] at hk
      rcases hk with hk | hk
      · rw [hk, cellIndex_small s.col s.row h1 h2]; omega
      · exact h3 k hk
    · rw [print_char_wrap s c hc (by omega)]
      obtain ⟨g1, g2, g3⟩ := inv_print_newline s h
      have g0 : (print_newline s).col = 0 := (print_newline_cursor s).1
      refine ⟨by simp [g0], by simpa using g2, ?_⟩
      intro k hk
      simp only [store_accessed, List.mem_cons] at hk
      rcases hk with hk | hk
      · rw [hk, cellIndex_small _ _ g1 g2]; omega
      · exact g3 k hk

theorem inv_print_str (str : List Nat) : ∀ (s : Console), Inv s → Inv (print_str s str) := by
  induction str with
  | nil => intro s h; exact h
  | cons ch rest ih =>
    intro s h
    unfold print_str
    by_cases hz : ch % 256 = 0
    · simp [hz]; exact h
    · simp only [hz, if_false]
      exact ih _ (inv_print_char s _ h)

theorem inv_print_clear (s : Console) (h : Inv s) : Inv (print_clear s) := by
  obtain ⟨h1, h2, h3⟩ := h
  obtain ⟨a, b, _, _, e⟩ := print_clear_spec s
  refine ⟨by omega, by omega, ?_⟩
  intro k hk
  rcases e k hk with hk | hk
  · exact h3 k hk
  · exact hk

theorem inv_step (s : Console) (op : Op) (h : Inv s) : Inv (step s op) := by
  cases op with
  | clear => exact inv_print_clear s h
  | char c => exact inv_print_char s c h
  | str str => exact inv_print_str str s h
  | newline => exact inv_print_newline s h
  | set_color fg bg => exact h

theorem inv_run (ops : List Op) : ∀ (s : Console), Inv s → Inv (run s ops) := by
  induction ops with
  | nil => intro s h; exact h
  | cons op rest ih =>
    intro s h
    exact ih _ (inv_step s op h)

end BrewKernel

namespace BrewKernel

/-! ## Printing a run of characters inside one row -/

theorem print_chars_cons (s : Console) (c : Nat) (cs : List Nat) :
    print_chars s (c :: cs) = print_chars (print_char s c) cs := rfl

theorem print_chars_append (s : Console) (xs ys : List Nat) :
    print_chars s (xs ++ ys) = print_chars (print_chars s xs) ys := by
  simp [print_chars, List.foldl_append]

/-- A string without zero bytes is printed by `print_str` as by one `print_char` call
per byte. -/
theorem print_str_eq_print_chars (str : List Nat) :
    ∀ (s : Console), (∀ c ∈ str, c ≠ 0 ∧ c < 256) → print_str s str = print_chars s str := by
  induction str with
  | nil => intro s _; rfl
  | cons ch rest ih =>
    intro s h
    have hch := h ch (List.mem_cons_self _ _)
    have e : ch % 256 = ch := Nat.mod_eq_of_lt hch.2
    unfold print_str
    simp only [e, hch.1, if_false]
    rw [print_chars_cons]
    exact ih _ (fun c hc => h c (List.mem_cons_of_mem _ hc))

/-- Characters other than newline that fit in the rest of the row are stored one after
the other from the cursor on; nothing else changes. -/
theorem print_chars_line (cs : List Nat) :
    ∀ (s : Console), (∀ c ∈ cs, c ≠ 10) → s.col + cs.length ≤ 80 → s.row < 25 →
      (print_chars s cs).col = s.col + cs.length ∧
      (print_chars s cs).row = s.row ∧
      (print_chars s cs).color = s.color ∧
      (∀ j, (print_chars s cs).buffer j =
        if 80 * s.row + s.col ≤ j ∧ j < 80 * s.row + s.col + cs.length then
          ⟨cs.getD (j - (80 * s.row + s.col)) 0 % 256, s.color⟩
        else s.buffer j) := by
  induction cs with
  | nil =>
    intro s _ _ _
    refine ⟨rfl, rfl, rfl, ?_⟩
    intro j
    have : ¬ (80 * s.row + s.col ≤ j ∧ j < 80 * s.row + s.col + ([] : List Nat).length) := by
      simp
    rw [if_neg this]; rfl
  | cons c rest ih =>
    intro s hnn hlen hrow
    have hlen2 : s.col + (rest.length + 1) ≤ 80 := by simpa using hlen
    have hc : c ≠ 10 := hnn c (List.mem_cons_self _ _)
    have hcol : s.col < 80 := by omega
    rw [print_chars_cons, print_char_inline s c hc hcol]
    obtain ⟨a1, a2, a3, a4⟩ := ih
      { s.store (cellIndex s.col s.row) ⟨c % 256, s.color⟩ with col := s.col + 1 }
      (fun x hx => hnn x (List.mem_cons_of_mem _ hx)) (by simp; omega) (by simpa using hrow)
    refine ⟨by rw [a1]; simp; omega, by rw [a2]; rfl, by rw [a3]; rfl, ?_⟩
    intro j
    rw [a4 j]
    simp only [store_buffer, store_row, store_color, List.length_cons]
    rw [cellIndex_small s.col s.row (by omega) hrow]
    by_cases hj : j = s.col + 80 * s.row
    · have a : ¬ (80 * s.row + (s.col + 1) ≤ j ∧ j < 80 * s.row + (s.col + 1) + rest.length) := by
        omega
      have b : 80 * s.row + s.col ≤ j ∧ j < 80 * s.row + s.col + (rest.length + 1) := by omega
      have z : j - (80 * s.row + s.col) = 0 := by omega
      rw [if_neg a, if_pos hj, if_pos b, z]
      rfl
    · by_cases hin : 80 * s.row + (s.col + 1) ≤ j ∧ j < 80 * s.row + (s.col + 1) + rest.length
      · have b : 80 * s.row + s.col ≤ j ∧ j < 80 * s.row + s.col + (rest.length + 1) := by omega
        have z : j - (80 * s.row + s.col) = (j - (80 * s.row + (s.col + 1))) + 1 := by omega
        rw [if_pos hin, if_pos b, z]
        rfl
      · have b : ¬ (80 * s.row + s.col ≤ j ∧ j < 80 * s.row + s.col + (rest.length + 1)) := by
          omega
        rw [if_neg hin, if_neg hj, if_neg b]

end BrewKernel

namespace BrewKernel

/-! ## The screen after printing whole lines -/

theorem getD_append_singleton (prev : List (List Nat)) (x : List Nat) (n : Nat) :
    (prev ++ [x]).getD n [] = if n = prev.length then x else prev.getD n [] := by
  by_cases h : n < prev.length
  · have : n ≠ prev.length := by omega
    rw [List.getD_append _ _ _ _ h, if_neg this]
  · rw [List.getD_append_right _ _ _ _ (by omega)]
    by_cases e : n = prev.length
    · rw [if_pos e, e, Nat.sub_self]; rfl
    · rw [if_neg e, List.getD_eq_default _ _ (by omega : prev.length ≤ n)]
      have : n - prev.length = (n - prev.length - 1) + 1 := by omega
      rw [this]; rfl

theorem getD_pad (l : List Nat) (k : Nat) (h : k < l.length) : l.getD k 0 = l.getD k 32 := by
  rw [List.getD_eq_getElem _ _ h, List.getD_eq_getElem _ _ h]

theorem getD_mem (l : List Nat) (k : Nat) (h : k < l.length) : l.getD k 32 ∈ l := by
  rw [List.getD_eq_getElem _ _ h]
  exact List.getElem_mem h

/-- Printing one line of at most 80 characters from the start of a row that is blank. -/
theorem print_line_shown (s : Console) (prev : List (List Nat)) (l : List Nat) (attr : Nat)
    (hcol : s.col = 0) (hrow : s.row = min prev.length 24) (hcolor : s.color = attr)
    (hbuf : ∀ i < 25, ∀ k < 80, s.buffer (k + 80 * i) = ⟨shown (prev ++ [[]]) i k, attr⟩)
    (hl : l.length ≤ 80) (hch : ∀ c ∈ l, c ≠ 10 ∧ c < 256) :
    (print_chars s l).col = l.length ∧ (print_chars s l).row = min prev.length 24 ∧
    (print_chars s l).color = attr ∧
    (∀ i < 25, ∀ k < 80,
      (print_chars s l).buffer (k + 80 * i) = ⟨shown (prev ++ [l]) i k, attr⟩) := by
  have hr25 : s.row < 25 := by rw [hrow]; omega
  obtain ⟨a1, a2, a3, a4⟩ := print_chars_line l s (fun c hc => (hch c hc).1)
    (by rw [hcol]; omega) hr25
  refine ⟨by rw [a1, hcol]; omega, by rw [a2, hrow], by rw [a3, hcolor], ?_⟩
  intro i hi k hk
  rw [a4 (k + 80 * i), hcol, hcolor]
  unfold shown
  simp only [List.length_append, List.length_singleton]
  rw [getD_append_singleton]
  by_cases hin : 80 * s.row + 0 ≤ k + 80 * i ∧ k + 80 * i < 80 * s.row + 0 + l.length
  · have hi2 : i = s.row := by omega
    have hk2 : k < l.length := by omega
    have e1 : prev.length + 1 - 25 + i = prev.length := by rw [hi2, hrow]; omega
    have e2 : k + 80 * i - (80 * s.row + 0) = k := by omega
    rw [if_pos hin, if_pos e1, e2, getD_pad l k hk2]
    have hb := (hch _ (getD_mem l k hk2)).2
    rw [Nat.mod_eq_of_lt hb]
  · rw [if_neg hin, hbuf i hi k hk]
    unfold shown
    simp only [List.length_append, List.length_singleton]
    rw [getD_append_singleton]
    by_cases e1 : prev.length + 1 - 25 + i = prev.length
    · have hi2 : i = s.row := by rw [hrow]; omega
      have hk2 : l.length ≤ k := by omega
      rw [if_pos e1, if_pos e1, List.getD_eq_default _ _ hk2]
      rfl
    · rw [if_neg e1, if_neg e1]

/-- The newline after a line: the next row is blank, after a scroll when the line was
on the last row. -/
theorem print_newline_shown (t : Console) (done : List (List Nat)) (attr : Nat)
    (hne : 1 ≤ done.length)
    (hrow : t.row = min (done.length - 1) 24) (hcolor : t.color = attr)
    (hbuf : ∀ i < 25, ∀ k < 80, t.buffer (k + 80 * i) = ⟨shown done i k, attr⟩) :
    (print_newline t).col = 0 ∧ (print_newline t).row = min done.length 24 ∧
    (print_newline t).color = attr ∧
    (∀ i < 25, ∀ k < 80,
      (print_newline t).buffer (k + 80 * i) = ⟨shown (done ++ [[]]) i k, attr⟩) := by
  by_cases h : t.row < 24
  · rw [print_newline_advance t h]
    refine ⟨rfl, ?_, hcolor, ?_⟩
    · show t.row + 1 = min done.length 24
      rw [hrow] at h ⊢; omega
    · intro i hi k hk
      show t.buffer (k + 80 * i) = _
      rw [hbuf i hi k hk]
      unfold shown
      simp only [List.length_append, List.length_singleton]
      rw [getD_append_singleton]
      have z1 : done.length + 1 - 25 = 0 := by rw [hrow] at h; omega
      have z2 : done.length - 25 = 0 := by omega
      rw [z1, z2]
      by_cases e : 0 + i = done.length
      · rw [if_pos e, List.getD_eq_default _ _ (by omega : done.length ≤ 0 + i)]
      · rw [if_neg e]
  · obtain ⟨b1, b2, b3, b4, _⟩ := print_newline_scroll t h
    have hlen : 25 ≤ done.length := by rw [hrow] at h; omega
    refine ⟨b1, by rw [b2, hrow]; omega, by rw [b3, hcolor], ?_⟩
    intro i hi k hk
    rw [b4 (k + 80 * i)]
    unfold shown
    simp only [List.length_append, List.length_singleton]
    rw [getD_append_singleton]
    by_cases hlt : k + 80 * i < 1920
    · have hi24 : i + 1 < 25 := by omega
      have e : k + 80 * i + 80 = k + 80 * (i + 1) := by omega
      have ne : done.length + 1 - 25 + i ≠ done.length := by omega
      have e2 : done.length + 1 - 25 + i = done.length - 25 + (i + 1) := by omega
      rw [if_pos hlt, e, hbuf (i + 1) hi24 k hk, if_neg ne, e2]
      rfl
    · have h2 : k + 80 * i < 2000 := by omega
      have hi24 : i = 24 := by omega
      have e : done.length + 1 - 25 + i = done.length := by omega
      rw [if_neg hlt, if_pos h2, if_pos e, hcolor]
      rfl

/-- Printing lines separated by newlines from the start of a blank row shows, in the
end, the last 25 of all lines printed. -/
theorem print_lines_shown (rest : List (List Nat)) :
    ∀ (s : Console) (prev : List (List Nat)) (attr : Nat),
      rest ≠ [] →
      s.col = 0 → s.row = min prev.length 24 → s.color = attr →
      (∀ i < 25, ∀ k < 80, s.buffer (k + 80 * i) = ⟨shown (prev ++ [[]]) i k, attr⟩) →
      (∀ l ∈ rest, l.length ≤ 80 ∧ ∀ c ∈ l, c ≠ 10 ∧ c < 256) →
      ∀ i < 25, ∀ k < 80,
        (print_chars s (join_lines rest)).buffer (k + 80 * i) =
          ⟨shown (prev ++ rest) i k, attr⟩ := by
  induction rest with
  | nil => intro s prev attr hne; exact absurd rfl hne
  | cons l more ih =>
    intro s prev attr _ hcol hrow hcolor hbuf hlines
    have hl := hlines l (List.mem_cons_self _ _)
    obtain ⟨a1, a2, a3, a4⟩ := print_line_shown s prev l attr hcol hrow hcolor hbuf hl.1 hl.2
    cases more with
    | nil => exact a4
    | cons l2 more2 =>
      have ej : join_lines (l :: l2 :: more2) = l ++ 10 :: join_lines (l2 :: more2) := rfl
      rw [ej, print_chars_append, print_chars_cons, print_char_newline]
      obtain ⟨b1, b2, b3, b4⟩ := print_newline_shown (print_chars s l) (prev ++ [l]) attr
        (by simp) (by rw [a2]; simp) a3 a4
      have := ih (print_newline (print_chars s l)) (prev ++ [l]) attr (by simp) b1
        b2 b3 b4 (fun x hx => hlines x (List.mem_cons_of_mem _ hx))
      simpa [List.append_assoc] using this

/-- The characters of lines without newline or zero bytes, joined by newlines, are all
nonzero bytes. -/
theorem join_lines_bytes (lines : List (List Nat))
    (h : ∀ l ∈ lines, ∀ c ∈ l, c ≠ 0 ∧ c < 256) :
    ∀ c ∈ join_lines lines, c ≠ 0 ∧ c < 256 := by
  induction lines with
  | nil => intro c hc; simp [join_lines] at hc
  | cons l more ih =>
    cases more with
    | nil => intro c hc; exact h l (List.mem_cons_self _ _) c hc
    | cons l2 more2 =>
      intro c hc
      have ej : join_lines (l :: l2 :: more2) = l ++ 10 :: join_lines (l2 :: more2) := rfl
      rw [ej, List.mem_append, List.mem_cons] at hc
      rcases hc with hc | hc | hc
      · exact h l (List.mem_cons_self _ _) c hc
      · rw [hc]; omega
      · exact ih (fun x hx => h x (List.mem_cons_of_mem _ hx)) c hc

end BrewKernel

namespace BrewKernel

/-! ## The console against the reference layout -/

theorem print_char_color (s : Console) (c : Nat) : (print_char s c).color = s.color := by
  by_cases hc : c = 10
  · rw [hc, print_char_newline]; exact (print_newline_cursor s).2.1
  · by_cases hcol : s.col < 80
    · rw [print_char_inline s c hc hcol]; rfl
    · rw [print_char_wrap s c hc (by omega)]
      exact (print_newline_cursor s).2.1

theorem place_row_le (attr : Nat) (l : Layout) (c : Nat) : l.row ≤ (Layout.place attr l c).row := by
  unfold Layout.place
  split_ifs <;> simp

theorem place_col_le (attr : Nat) (l : Layout) (c : Nat) (h : l.col ≤ 80) :
    (Layout.place attr l c).col ≤ 80 := by
  unfold Layout.place
  split_ifs
  · simp
  · simp
  · simp; omega

theorem foldl_place_row_le (attr : Nat) (str : List Nat) :
    ∀ (l : Layout), l.row ≤ (str.foldl (Layout.place attr) l).row := by
  induction str with
  | nil => intro l; exact Nat.le_refl _
  | cons c rest ih =>
    intro l
    exact Nat.le_trans (place_row_le attr l c) (ih _)

/-- One character: the console and the reference layout stay together as long as the
layout stays on the screen. -/
theorem print_char_simulates (s : Console) (l : Layout) (c : Nat)
    (hcol : s.col = l.col) (hrow : s.row = l.row) (h80 : l.col ≤ 80)
    (hbuf : ∀ j < 2000, s.buffer j = l.cells j)
    (hc : c < 256) (hfit : (Layout.place s.color l c).row < 25) :
    (print_char s c).col = (Layout.place s.color l c).col ∧
    (print_char s c).row = (Layout.place s.color l c).row ∧
    (∀ j < 2000, (print_char s c).buffer j = (Layout.place s.color l c).cells j) := by
  by_cases hnl : c = 10
  · subst hnl
    have e : Layout.place s.color l 10 = { l with col := 0, row := l.row + 1 } := by
      simp [Layout.place]
    rw [e] at hfit ⊢
    have hlt : s.row < 24 := by rw [hrow]; simp at hfit; omega
    rw [print_char_newline, print_newline_advance s hlt]
    exact ⟨rfl, by simp [hrow], hbuf⟩
  · by_cases hw : l.col = 80
    · have e : Layout.place s.color l c =
          { cells := fun j => if j = 0 + 80 * (l.row + 1) then ⟨c, s.color⟩ else l.cells j,
            col := 1, row := l.row + 1 } := by
        simp [Layout.place, hnl, hw]
      rw [e] at hfit ⊢
      have hlt : s.row < 24 := by rw [hrow]; simp at hfit; omega
      rw [print_char_wrap s c hnl (by omega), print_newline_advance s hlt]
      refine ⟨rfl, by simp [hrow], ?_⟩
      intro j hj
      simp only [store_buffer]
      rw [cellIndex_small 0 (s.row + 1) (by omega) (by omega), Nat.mod_eq_of_lt hc, hrow]
      by_cases hjj : j = 0 + 80 * (l.row + 1)
      · rw [if_pos hjj, if_pos hjj]
      · rw [if_neg hjj, if_neg hjj]; exact hbuf j hj
    · have hlt : l.col < 80 := by omega
      have e : Layout.place s.color l c =
          { cells := fun j => if j = l.col + 80 * l.row then ⟨c, s.color⟩ else l.cells j,
            col := l.col + 1, row := l.row } := by
        simp [Layout.place, hnl, hw]
      rw [e] at hfit ⊢
      have hr : s.row < 25 := by rw [hrow]; simpa using hfit
      rw [print_char_inline s c hnl (by omega)]
      refine ⟨by simp [hcol], by simp [hrow], ?_⟩
      intro j hj
      simp only [store_buffer]
      rw [cellIndex_small s.col s.row (by omega) hr, Nat.mod_eq_of_lt hc, hrow, hcol]
      by_cases hjj : j = l.col + 80 * l.row
      · rw [if_pos hjj, if_pos hjj]
      · rw [if_neg hjj, if_neg hjj]; exact hbuf j hj

/-- A whole string: as long as the reference layout of the string stays on the screen,
`print_str` produces it. -/
theorem print_str_simulates (str : List Nat) :
    ∀ (s : Console) (l : Layout),
      s.col = l.col → s.row = l.row → l.col ≤ 80 →
      (∀ j < 2000, s.buffer j = l.cells j) →
      (∀ c ∈ str, c ≠ 0 ∧ c < 256) →
      (str.foldl (Layout.place s.color) l).row < 25 →
      ∀ j < 2000, (print_str s str).buffer j = (str.foldl (Layout.place s.color) l).cells j := by
  induction str with
  | nil => intro s l _ _ _ hbuf _ _; exact hbuf
  | cons ch rest ih =>
    intro s l hcol hrow h80 hbuf hch hfit
    have h1 := hch ch (List.mem_cons_self _ _)
    have e : ch % 256 = ch := Nat.mod_eq_of_lt h1.2
    unfold print_str
    simp only [e, h1.1, if_false, List.foldl_cons]
    have hfit1 : (Layout.place s.color l ch).row < 25 :=
      Nat.lt_of_le_of_lt (foldl_place_row_le s.color rest _) hfit
    obtain ⟨a1, a2, a3⟩ := print_char_simulates s l ch hcol hrow h80 hbuf h1.2 hfit1
    have hcolor := print_char_color s ch
    have := ih (print_char s ch) (Layout.place s.color l ch) a1 a2
      (place_col_le s.color l ch h80) a3 (fun c hc => hch c (List.mem_cons_of_mem _ hc))
      (by rw [hcolor]; exact hfit)
    rw [hcolor] at this
    exact this

theorem run_chars (cs : List Nat) :
    ∀ (s : Console), run s (cs.map Op.char) = print_chars s cs := by
  induction cs with
  | nil => intro s; rfl
  | cons c rest ih => intro s; exact ih (print_char s c)

end BrewKernel

namespace BrewKernel

/-! ## Lines printed on a cleared screen -/

theorem shown_blank (i k : Nat) : shown ([] ++ [[]]) i k = 32 := by
  unfold shown
  rw [getD_append_singleton]
  split_ifs <;> rfl

/-- Lines of at most 80 characters, printed by `print_char` calls on a cleared screen
from (0, 0) and separated by newlines, leave the screen showing the last 25 of them. -/
theorem print_chars_lines (s0 : Console) (lines : List (List Nat))
    (hcol : s0.col = 0) (hrow : s0.row = 0) (hne : lines ≠ [])
    (hl : ∀ l ∈ lines, l.length ≤ 80 ∧ ∀ c ∈ l, c ≠ 10 ∧ c < 256) :
    ∀ i < 25, ∀ k < 80,
      (print_chars (print_clear s0) (join_lines lines)).buffer (k + 80 * i) =
        ⟨shown lines i k, s0.color⟩ := by
  obtain ⟨a1, a2, a3, a4, _⟩ := print_clear_spec s0
  have := print_lines_shown lines (print_clear s0) [] s0.color hne (by rw [a1, hcol])
    (by rw [a2, hrow]; rfl) a3
    (by
      intro i hi k hk
      rw [a4 (k + 80 * i), if_pos (by omega), shown_blank])
    hl
  simpa using this

/-- The same through `print_str`, for lines without zero bytes. -/
theorem print_str_lines (s0 : Console) (lines : List (List Nat))
    (hcol : s0.col = 0) (hrow : s0.row = 0) (hne : lines ≠ [])
    (hl : ∀ l ∈ lines, l.length ≤ 80 ∧ ∀ c ∈ l, c ≠ 10 ∧ c < 256)
    (hz : ∀ l ∈ lines, ∀ c ∈ l, c ≠ 0) :
    ∀ i < 25, ∀ k < 80,
      (print_str (print_clear s0) (join_lines lines)).buffer (k + 80 * i) =
        ⟨shown lines i k, s0.color⟩ := by
  rw [print_str_eq_print_chars _ _
    (join_lines_bytes lines (fun l hl2 c hc => ⟨hz l hl2 c hc, ((hl l hl2).2 c hc).2⟩))]
  exact print_chars_lines s0 lines hcol hrow hne hl

/-- After a row is filled the next character other than newline starts the next row. -/
theorem print_char_after_full_row (t : Console) (c : Nat) (hc : c ≠ 10)
    (hcol : t.col = 80) (hrow : t.row < 24) :
    (print_char t c).col = 1 ∧ (print_char t c).row = t.row + 1 ∧
    (∀ j, (print_char t c).buffer j =
      if j = 80 * (t.row + 1) then ⟨c % 256, t.color⟩ else t.buffer j) := by
  rw [print_char_wrap t c hc (by omega), print_newline_advance t hrow]
  refine ⟨rfl, rfl, ?_⟩
  intro j
  simp only [store_buffer]
  rw [cellIndex_small 0 (t.row + 1) (by omega) (by omega)]
  simp

end BrewKernel

namespace BrewKernel

/-! ## Palette controller -/

theorem port_writes_append (xs ys : List PortEvent) :
    port_writes (xs ++ ys) = port_writes xs ++ port_writes ys := by
  induction xs with
  | nil => rfl
  | cons e rest ih =>
    cases e with
    | inb p v => simpa [port_writes] using ih
    | outb p v => simpa [port_writes] using ih

/-- The retrace wait only reads. -/
theorem retrace_wait_reads (n : Nat) :
    ∀ (status : List Nat) (events : List PortEvent) (left : List Nat),
      status.length ≤ n → retrace_wait status = some (events, left) →
      port_writes events = [] := by
  induction n using Nat.strong_induction_on with
  | _ n ih =>
    intro status events left hlen h
    match status, hlen, h with
    | [], _, h => simp [retrace_wait] at h
    | [_], _, h => simp [retrace_wait] at h
    | first :: second :: rest, hlen, h =>
      unfold retrace_wait at h
      by_cases hb : second &&& 8 ≠ 0
      · rw [if_pos hb] at h
        cases hrec : retrace_wait rest with
        | none => rw [hrec] at h; simp at h
        | some r =>
          obtain ⟨ev, lf⟩ := r
          rw [hrec] at h
          simp only [Option.some.injEq, Prod.mk.injEq] at h
          have hlen2 : rest.length < n := by simp at hlen; omega
          have := ih rest.length hlen2 rest ev lf (Nat.le_refl _) hrec
          rw [← h.1]
          simpa [port_writes] using this
      · rw [if_neg hb] at h
        simp only [Option.some.injEq, Prod.mk.injEq] at h
        rw [← h.1]
        rfl

/-- The retrace wait ends as soon as one of the tested reads (the second of a pair)
shows bit 3 clear. -/
theorem retrace_wait_returns (n : Nat) :
    ∀ (status : List Nat), 2 * n + 1 < status.length →
      status.getD (2 * n + 1) 0 &&& 8 = 0 → (retrace_wait status).isSome = true := by
  induction n with
  | zero =>
    intro status hlen hb
    match status, hlen, hb with
    | first :: second :: rest, _, hb =>
      unfold retrace_wait
      have : ¬ (second &&& 8 ≠ 0) := by simpa using hb
      rw [if_neg this]
      rfl
  | succ m ih =>
    intro status hlen hb
    match status, hlen, hb with
    | first :: second :: rest, hlen, hb =>
      unfold retrace_wait
      by_cases hs : second &&& 8 ≠ 0
      · rw [if_pos hs]
        have hlen2 : 2 * m + 1 < rest.length := by simp at hlen; omega
        have e : 2 * (m + 1) + 1 = (2 * m + 1) + 1 + 1 := by omega
        rw [e] at hb
        have := ih rest hlen2 hb
        cases hrec : retrace_wait rest with
        | none => rw [hrec] at this; simp at this
        | some r => rfl
      · rw [if_neg hs]
        rfl

end BrewKernel

namespace VoidKernel

/-! ## Keyboard driver -/

/-- A release scancode (bit 7 set) changes nothing. -/
theorem keyboard_handler_release (s : Kernel) (scancode : Nat) (after : List Nat)
    (h : scancode &&& 0x80 ≠ 0) : keyboard_handler s scancode after = s := by
  unfold keyboard_handler
  rw [if_pos h]

/-- A press scancode whose map entry is 0 changes nothing. -/
theorem keyboard_handler_unmapped (s : Kernel) (scancode : Nat) (after : List Nat)
    (h : scancode &&& 0x80 = 0) (hz : keyboard_map.getD scancode 0 = 0) :
    keyboard_handler s scancode after = s := by
  unfold keyboard_handler
  have : ¬ (scancode &&& 0x80 ≠ 0) := by simpa using h
  rw [if_neg this]
  simp only [hz, ne_eq, not_true_eq_false, if_false]

/-- A press scancode with a nonzero map entry: the character is stored at the write
cursor, a zero byte behind it, and `kernel_puts` runs on the character followed by the
bytes behind it in memory. -/
theorem keyboard_handler_mapped (s : Kernel) (scancode : Nat) (after : List Nat)
    (h : scancode &&& 0x80 = 0) (hm : keyboard_map.getD scancode 0 ≠ 0) :
    keyboard_handler s scancode after =
      kernel_puts
        { s with
          key_buffer := fun j =>
            if j = (s.cursor_position + 1) % 65536 then 0
            else if j = s.cursor_position then keyboard_map.getD scancode 0
            else s.key_buffer j,
          key_writes := (s.cursor_position + 1) % 65536 :: s.cursor_position :: s.key_writes,
          cursor_position := (s.cursor_position + 1) % 65536 }
        (keyboard_map.getD scancode 0 :: after) := by
  unfold keyboard_handler
  have : ¬ (scancode &&& 0x80 ≠ 0) := by simpa using h
  rw [if_neg this]
  simp only [hm, ne_eq, not_false_eq_true, if_true]

/-- The echo of one character other than newline, when a zero byte follows it: one cell
is written at the screen cursor, which advances by one. -/
theorem kernel_puts_single (s : Kernel) (c : Nat) (h0 : c ≠ 0) (hn : c ≠ 10) (h7 : c < 128) :
    kernel_puts s [c] =
      { s with
        vga_buffer := fun j => if j = s.puts_cursor_position then (0x0F00 ||| c) % 65536
                               else s.vga_buffer j,
        puts_cursor_position := (s.puts_cursor_position + 1) % 65536 } := by
  simp [kernel_puts, h0, hn, h7]

/-- The function `kernel_puts` touches neither `key_buffer` nor its write cursor. -/
theorem kernel_puts_keeps (str : List Nat) :
    ∀ (s : Kernel), (kernel_puts s str).key_buffer = s.key_buffer ∧
      (kernel_puts s str).cursor_position = s.cursor_position ∧
      (kernel_puts s str).key_writes = s.key_writes := by
  induction str with
  | nil => intro s; exact ⟨rfl, rfl, rfl⟩
  | cons c rest ih =>
    intro s
    unfold kernel_puts
    by_cases h0 : c = 0
    · rw [if_pos h0]; exact ⟨rfl, rfl, rfl⟩
    · rw [if_neg h0]
      by_cases hn : c = 10
      · rw [if_pos hn]; exact ih _
      · rw [if_neg hn]; exact ih _

/-- Every entry of `keyboard_map` is an ASCII code below 128. -/
theorem keyboard_map_ascii (k : Nat) : keyboard_map.getD k 0 < 128 := by
  by_cases h : k < 128
  · have : ∀ k < 128, keyboard_map.getD k 0 < 128 := by decide
    exact this k h
  · rw [List.getD_eq_default _ _ (by simp [keyboard_map]; omega)]
    decide

/-- The parts of the handler's contract that hold whatever follows the local `c` in
memory: release and unmapped scancodes change nothing; a mapped press stores the
character and a terminator in `key_buffer` and advances the write cursor by one; and,
when a zero byte follows `c`, a mapped press of a character other than newline writes
exactly one screen cell. -/
theorem keyboard_handler_effect (s : Kernel) (k : Nat) (after : List Nat) (hk : k < 128) :
    keyboard_handler s (k ||| 0x80) after = s ∧
    (keyboard_map.getD k 0 = 0 → keyboard_handler s k after = s) ∧
    (keyboard_map.getD k 0 ≠ 0 →
      (keyboard_handler s k after).cursor_position = (s.cursor_position + 1) % 65536 ∧
      (s.cursor_position < 65535 →
        (keyboard_handler s k after).key_buffer s.cursor_position = keyboard_map.getD k 0 ∧
        (keyboard_handler s k after).key_buffer (s.cursor_position + 1) = 0 ∧
        ∀ j, j ≠ s.cursor_position → j ≠ s.cursor_position + 1 →
          (keyboard_handler s k after).key_buffer j = s.key_buffer j)) ∧
    (keyboard_map.getD k 0 ≠ 0 → keyboard_map.getD k 0 ≠ 10 →
      (keyboard_handler s k []).vga_buffer s.puts_cursor_position =
        0x0F00 ||| keyboard_map.getD k 0 ∧
      (keyboard_handler s k []).puts_cursor_position = (s.puts_cursor_position + 1) % 65536 ∧
      ∀ j, j ≠ s.puts_cursor_position →
        (keyboard_handler s k []).vga_buffer j = s.vga_buffer j) := by
  have hrel : ∀ k < 128, (k ||| 0x80) &&& 0x80 ≠ 0 := by decide
  have hpress : ∀ k < 128, k &&& 0x80 = 0 := by decide
  have hcell : ∀ c < 128, (0x0F00 ||| c) % 65536 = 0x0F00 ||| c := by decide
  refine ⟨keyboard_handler_release s _ after (hrel k hk),
    fun hz => keyboard_handler_unmapped s k after (hpress k hk) hz, ?_, ?_⟩
  · intro hm
    rw [keyboard_handler_mapped s k after (hpress k hk) hm]
    obtain ⟨a1, a2, _⟩ := kernel_puts_keeps (keyboard_map.getD k 0 :: after)
      { s with
        key_buffer := fun j =>
          if j = (s.cursor_position + 1) % 65536 then 0
          else if j = s.cursor_position then keyboard_map.getD k 0
          else s.key_buffer j,
        key_writes := (s.cursor_position + 1) % 65536 :: s.cursor_position :: s.key_writes,
        cursor_position := (s.cursor_position + 1) % 65536 }
    rw [a1, a2]
    refine ⟨rfl, ?_⟩
    intro hcp
    have e : (s.cursor_position + 1) % 65536 = s.cursor_position + 1 :=
      Nat.mod_eq_of_lt (by omega)
    simp only [e]
    refine ⟨?_, ?_, ?_⟩
    · simp
    · simp
    · intro j h1 h2
      simp [h1, h2]
  · intro hm hn
    rw [keyboard_handler_mapped s k [] (hpress k hk) hm,
      kernel_puts_single _ _ hm hn (keyboard_map_ascii k)]
    simp only [hcell _ (keyboard_map_ascii k)]
    refine ⟨by simp, trivial, ?_⟩
    intro j hj
    simp [hj]

end VoidKernel

namespace BrewKernel

/-! ## Claims about the frame buffer console -/

/-- C1, counterexample: the sequence 'A' followed by 25 newlines is made of printable
characters and newlines and is shorter than 25*80, yet after `print_clear` and
`print_str` from (0, 0) cell 0 holds a space while the reference layout has 'A' there:
the 25th newline scrolled the screen. -/
theorem print_str_layout_counterexample :
    (∀ c ∈ (65 :: List.replicate 25 10), c = 10 ∨ (32 ≤ c ∧ c ≤ 126)) ∧
    (65 :: List.replicate 25 10).length < 25 * 80 ∧
    boot.col = 0 ∧ boot.row = 0 ∧
    (print_str (print_clear boot) (65 :: List.replicate 25 10)).buffer 0 = ⟨32, 15⟩ ∧
    (reference_layout boot.color (65 :: List.replicate 25 10)).cells 0 = ⟨65, 15⟩ ∧
    (print_str (print_clear boot) (65 :: List.replicate 25 10)).buffer 0 ≠
      (reference_layout boot.color (65 :: List.replicate 25 10)).cells 0 := by
  have hcode : (print_str (print_clear boot) (65 :: List.replicate 25 10)).buffer 0 = ⟨32, 15⟩ := by
    have e : (65 :: List.replicate 25 10) = join_lines ([65] :: List.replicate 25 []) := by decide
    rw [e]
    have := print_str_lines boot ([65] :: List.replicate 25 []) rfl rfl (by simp)
      (by
        intro l hl
        simp only [List.mem_cons, List.mem_replicate] at hl
        rcases hl with hl | hl
        · subst hl; decide
        · rw [hl.2]; simp)
      (by
        intro l hl
        simp only [List.mem_cons, List.mem_replicate] at hl
        rcases hl with hl | hl
        · subst hl; decide
        · rw [hl.2]; simp)
      0 (by decide) 0 (by decide)
    rw [this]
    decide
  have href : (reference_layout boot.color (65 :: List.replicate 25 10)).cells 0 = ⟨65, 15⟩ := by
    decide
  refine ⟨by decide, by decide, rfl, rfl, hcode, href, ?_⟩
  rw [hcode, href]
  decide

/-- C1, amended: from `print_clear()` with the cursor at (0, 0), for every sequence of
printable characters and newlines of length below 25*80 whose reference layout stays
within the 25 rows of the screen, the grid after `print_str` equals the reference
layout: left to right, top to bottom, wrap to column 0 of the next row for a character
that would land at column 80, column 0 of the next row at a newline, and a space with
the attribute current at `print_clear()` time in every cell not written. -/
theorem print_str_layout_fits (s0 : Console) (str : List Nat) (j : Nat)
    (hcol : s0.col = 0) (hrow : s0.row = 0)
    (hprintable : ∀ c ∈ str, c = 10 ∨ (32 ≤ c ∧ c ≤ 126))
    (_hlen : str.length < 25 * 80)
    (hfit : (reference_layout s0.color str).row < 25)
    (hj : j < 2000) :
    (print_str (print_clear s0) str).buffer j = (reference_layout s0.color str).cells j := by
  obtain ⟨a1, a2, a3, a4, _⟩ := print_clear_spec s0
  have hbytes : ∀ c ∈ str, c ≠ 0 ∧ c < 256 := by
    intro c hc
    rcases hprintable c hc with h | h <;> omega
  have key := print_str_simulates str (print_clear s0)
    { cells := fun _ => ⟨32, s0.color⟩, col := 0, row := 0 }
    (by rw [a1, hcol]) (by rw [a2, hrow]) (by simp)
    (by intro i hi; rw [a4 i, if_pos hi])
    hbytes (by rw [a3]; exact hfit) j hj
  rw [a3] at key
  exact key

/-- Witness of C1 (amended) on the text "Hi", newline, "!": the first cell of row 1. -/
theorem print_str_layout_fits_witness :
    (boot.col = 0 ∧ boot.row = 0) ∧
    (∀ c ∈ [72, 105, 10, 33], c = 10 ∨ (32 ≤ c ∧ c ≤ 126)) ∧
    (reference_layout boot.color [72, 105, 10, 33]).row < 25 ∧
    (print_str (print_clear boot) [72, 105, 10, 33]).buffer 80 =
      (reference_layout boot.color [72, 105, 10, 33]).cells 80 :=
  ⟨⟨rfl, rfl⟩, by decide, by decide,
   print_str_layout_fits boot [72, 105, 10, 33] 80 rfl rfl (by decide) (by decide) (by decide)
     (by decide)⟩

/-- C2, counterexample: from (col 0, row 0), `print_char` on 80 characters 'X' leaves
the cursor at (col 80, row 0), not at (col 0, row 1). -/
theorem print_char_full_row_counterexample :
    boot.col = 0 ∧ boot.row = 0 ∧
    (print_chars boot (List.replicate 80 88)).col = 80 ∧
    (print_chars boot (List.replicate 80 88)).row = 0 ∧
    ¬ ((print_chars boot (List.replicate 80 88)).col = 0 ∧
       (print_chars boot (List.replicate 80 88)).row = 0 + 1) := by
  obtain ⟨a1, a2, _, _⟩ := print_chars_line (List.replicate 80 88) boot
    (by intro c hc; rw [List.eq_of_mem_replicate hc]; decide) (by simp [boot, initial])
    (by simp [boot, initial])
  have e1 : (print_chars boot (List.replicate 80 88)).col = 80 := by
    rw [a1]; simp [boot, initial]
  have e2 : (print_chars boot (List.replicate 80 88)).row = 0 := by
    rw [a2]; rfl
  refine ⟨rfl, rfl, e1, e2, ?_⟩
  rw [e1]
  intro h
  exact absurd h.1 (by decide)

/-- C2, amended: for every row r < 24, from the cursor (col 0, row r), `print_char` on
exactly 80 characters other than newline leaves the cursor at (col 80, row r), with row
r fully written and every other cell, row r+1 included, untouched; the move to row r+1
happens at the next character, which is stored at (col 0, row r+1) and leaves the
cursor at (col 1, row r+1), so that no blank cell is inserted at the wrap. -/
theorem print_char_full_row (s : Console) (r : Nat) (cs : List Nat)
    (hr : r < 24) (hcol : s.col = 0) (hrow : s.row = r) (hlen : cs.length = 80)
    (hcs : ∀ c ∈ cs, c ≠ 10 ∧ c < 256) :
    (print_chars s cs).col = 80 ∧ (print_chars s cs).row = r ∧
    (∀ k < 80, (print_chars s cs).buffer (k + 80 * r) = ⟨cs.getD k 0, s.color⟩) ∧
    (∀ j, ¬ (80 * r ≤ j ∧ j < 80 * r + 80) → (print_chars s cs).buffer j = s.buffer j) ∧
    (∀ c, c ≠ 10 → c < 256 →
      (print_char (print_chars s cs) c).col = 1 ∧
      (print_char (print_chars s cs) c).row = r + 1 ∧
      (print_char (print_chars s cs) c).buffer (0 + 80 * (r + 1)) = ⟨c, s.color⟩) := by
  obtain ⟨a1, a2, a3, a4⟩ := print_chars_line cs s (fun c hc => (hcs c hc).1)
    (by rw [hcol, hlen]) (by rw [hrow]; omega)
  have e1 : (print_chars s cs).col = 80 := by rw [a1, hcol, hlen]
  have e2 : (print_chars s cs).row = r := by rw [a2, hrow]
  refine ⟨e1, e2, ?_, ?_, ?_⟩
  · intro k hk
    have hin : 80 * s.row + s.col ≤ k + 80 * r ∧ k + 80 * r < 80 * s.row + s.col + cs.length := by
      rw [hrow, hcol, hlen]; omega
    have e : k + 80 * r - (80 * s.row + s.col) = k := by rw [hrow, hcol]; omega
    have hm : cs.getD k 0 ∈ cs := by
      rw [List.getD_eq_getElem _ _ (by omega : k < cs.length)]
      exact List.getElem_mem _
    rw [a4 (k + 80 * r), if_pos hin, e, Nat.mod_eq_of_lt (hcs _ hm).2]
  · intro j hj
    have hout : ¬ (80 * s.row + s.col ≤ j ∧ j < 80 * s.row + s.col + cs.length) := by
      rw [hrow, hcol, hlen]; omega
    rw [a4 j, if_neg hout]
  · intro c hc hb
    obtain ⟨b1, b2, b3⟩ := print_char_after_full_row (print_chars s cs) c hc e1
      (by rw [e2]; exact hr)
    refine ⟨b1, by rw [b2, e2], ?_⟩
    rw [b3, e2, if_pos (by omega), Nat.mod_eq_of_lt hb, a3]

/-- Witness of C2 (amended): 80 characters 'X' from (col 0, row 0). -/
theorem print_char_full_row_witness :
    (boot.col = 0 ∧ boot.row = 0 ∧ (List.replicate 80 88).length = 80) ∧
    (print_chars boot (List.replicate 80 88)).col = 80 ∧
    (print_chars boot (List.replicate 80 88)).row = 0 ∧
    (∀ k < 80, (print_chars boot (List.replicate 80 88)).buffer (k + 80 * 0) =
      ⟨(List.replicate 80 88).getD k 0, boot.color⟩) ∧
    (∀ j, ¬ (80 * 0 ≤ j ∧ j < 80 * 0 + 80) →
      (print_chars boot (List.replicate 80 88)).buffer j = boot.buffer j) ∧
    (∀ c, c ≠ 10 → c < 256 →
      (print_char (print_chars boot (List.replicate 80 88)) c).col = 1 ∧
      (print_char (print_chars boot (List.replicate 80 88)) c).row = 0 + 1 ∧
      (print_char (print_chars boot (List.replicate 80 88)) c).buffer (0 + 80 * (0 + 1)) =
        ⟨c, boot.color⟩) :=
  ⟨⟨rfl, rfl, by simp⟩,
   print_char_full_row boot 0 (List.replicate 80 88) (by decide) rfl rfl (by simp)
     (by intro c hc; rw [List.eq_of_mem_replicate hc]; decide)⟩

end BrewKernel

namespace BrewKernel

/-- C3: scroll invariant.  For every list of N > 25 lines, each of at most 80
characters (bytes) other than newline, printing the lines separated by newlines,
without a trailing newline, on a cleared screen from (0, 0) leaves row i, for every i in
0..24, holding line N-25+i followed by spaces, in the attribute current at
`print_clear()` time: the oldest N-25 lines are gone and the order is kept.  This holds
when the text is printed by one `print_char` call per character and, the lines having
no zero byte (as in any C string), when it is printed by `print_str`. -/
theorem scroll_invariant (s0 : Console) (lines : List (List Nat)) (i k : Nat)
    (hcol : s0.col = 0) (hrow : s0.row = 0)
    (hN : 25 < lines.length)
    (hl : ∀ l ∈ lines, l.length ≤ 80 ∧ ∀ c ∈ l, c ≠ 10 ∧ c < 256)
    (hi : i < 25) (hk : k < 80) :
    (print_chars (print_clear s0) (join_lines lines)).buffer (k + 80 * i) =
      ⟨(lines.getD (lines.length - 25 + i) []).getD k 32, s0.color⟩ ∧
    ((∀ l ∈ lines, ∀ c ∈ l, c ≠ 0) →
      (print_str (print_clear s0) (join_lines lines)).buffer (k + 80 * i) =
        ⟨(lines.getD (lines.length - 25 + i) []).getD k 32, s0.color⟩) := by
  have hne : lines ≠ [] := by
    intro h
    rw [h] at hN
    simp at hN
  exact ⟨print_chars_lines s0 lines hcol hrow hne hl i hi k hk,
    fun hz => print_str_lines s0 lines hcol hrow hne hl hz i hi k hk⟩

/-- Witness of C3: 25 lines "X" and a last line "END"; row 24 starts with 'E', and row
0 shows line 1. -/
theorem scroll_invariant_witness :
    (boot.col = 0 ∧ boot.row = 0 ∧ 25 < (List.replicate 25 [88] ++ [[69, 78, 68]]).length) ∧
    ((print_chars (print_clear boot)
        (join_lines (List.replicate 25 [88] ++ [[69, 78, 68]]))).buffer (0 + 80 * 24) =
      ⟨((List.replicate 25 [88] ++ [[69, 78, 68]]).getD
          ((List.replicate 25 [88] ++ [[69, 78, 68]]).length - 25 + 24) []).getD 0 32,
        boot.color⟩ ∧
    ((∀ l ∈ List.replicate 25 [88] ++ [[69, 78, 68]], ∀ c ∈ l, c ≠ 0) →
      (print_str (print_clear boot)
        (join_lines (List.replicate 25 [88] ++ [[69, 78, 68]]))).buffer (0 + 80 * 24) =
      ⟨((List.replicate 25 [88] ++ [[69, 78, 68]]).getD
          ((List.replicate 25 [88] ++ [[69, 78, 68]]).length - 25 + 24) []).getD 0 32,
        boot.color⟩)) :=
  ⟨⟨rfl, rfl, by decide⟩,
   scroll_invariant boot (List.replicate 25 [88] ++ [[69, 78, 68]]) 24 0 rfl rfl (by decide)
     (by decide) (by decide) (by decide)⟩

/-- C4, counterexample: 80 calls `print_char('X')` from the initial state reach a state
with col = 80, so `col < 80 ∧ row < 25` fails after an operation has returned. -/
theorem cursor_invariant_counterexample :
    (run boot (List.replicate 80 (Op.char 88))).col = 80 ∧
    ¬ ((run boot (List.replicate 80 (Op.char 88))).col < 80 ∧
       (run boot (List.replicate 80 (Op.char 88))).row < 25) := by
  have e : List.replicate 80 (Op.char 88) = (List.replicate 80 88).map Op.char := by simp
  obtain ⟨a1, _, _, _⟩ := print_chars_line (List.replicate 80 88) boot
    (by intro c hc; rw [List.eq_of_mem_replicate hc]; decide) (by simp [boot, initial])
    (by simp [boot, initial])
  have e1 : (run boot (List.replicate 80 (Op.char 88))).col = 80 := by
    rw [e, run_chars, a1]; simp [boot, initial]
  refine ⟨e1, ?_⟩
  rw [e1]
  intro h
  exact absurd h.1 (by decide)

/-- C4, amended: cursor invariant.  In every state reachable from the initial state
(col 0, row 0) by any sequence of print_clear, print_char, print_str, print_newline and
print_set_color calls, col ≤ 80 and row < 25 hold after each operation returns; col = 80
occurs, exactly after a row has been filled, the wrap being deferred to the next
character. -/
theorem cursor_invariant (memory : Nat → Char) (color : Nat) (ops : List Op) :
    (run (initial memory color) ops).col ≤ 80 ∧ (run (initial memory color) ops).row < 25 :=
  ⟨(inv_run ops _ (inv_initial memory color)).1, (inv_run ops _ (inv_initial memory color)).2.1⟩

/-- C5: grid index safety.  In every state reachable from the initial state by any
sequence of print_clear, print_char, print_str, print_newline and print_set_color
calls, every cell offset read or written through `buffer` (the scroll copy and the
clearing of the last row included) is below 2000. -/
theorem grid_index_safety (memory : Nat → Char) (color : Nat) (ops : List Op) (k : Nat)
    (hk : k ∈ (run (initial memory color) ops).accessed) : k < 2000 :=
  (inv_run ops _ (inv_initial memory color)).2.2 k hk

/-- Witness of C5: the offset 0 written by `print_char('A')` from the initial state. -/
theorem grid_index_safety_witness :
    0 ∈ (run (initial (fun _ => ⟨0, 0⟩) 15) [Op.char 65]).accessed ∧ 0 < 2000 :=
  ⟨by simp [run, step, initial, print_char, NUM_COLS, cellIndex, SIZE_T, Console.store],
   grid_index_safety (fun _ => ⟨0, 0⟩) 15 [Op.char 65] 0
    (by simp [run, step, initial, print_char, NUM_COLS, cellIndex, SIZE_T, Console.store])⟩

/-- C6: non-retroactivity of `print_set_color`.  The call changes no cell and no cursor
field; a following `print_char(c)`, c a byte other than newline, at a cursor with
col < 80 stores c with the new attribute in the cell at the cursor and leaves every
other cell as it was; after `print_set_color(4, 0)`, `print_char('Z')` stores the
attribute 0x04. -/
theorem set_color_not_retroactive (s : Console) (fg bg c : Nat)
    (hc : c ≠ 10) (hb : c < 256) (hcol : s.col < 80) :
    (print_set_color s fg bg).buffer = s.buffer ∧
    (print_set_color s fg bg).col = s.col ∧
    (print_set_color s fg bg).row = s.row ∧
    (print_char (print_set_color s fg bg) c).buffer (cellIndex s.col s.row) =
      ⟨c, (print_set_color s fg bg).color⟩ ∧
    (∀ j, j ≠ cellIndex s.col s.row →
      (print_char (print_set_color s fg bg) c).buffer j = s.buffer j) ∧
    (print_char (print_set_color s 4 0) 90).buffer (cellIndex s.col s.row) = ⟨90, 0x04⟩ := by
  refine ⟨rfl, rfl, rfl, ?_, ?_, ?_⟩
  · rw [print_char_inline _ c hc (by simpa [print_set_color] using hcol)]
    simp [print_set_color, Nat.mod_eq_of_lt hb]
  · intro j hj
    rw [print_char_inline _ c hc (by simpa [print_set_color] using hcol)]
    simp [print_set_color, hj]
  · rw [print_char_inline _ 90 (by decide) (by simpa [print_set_color] using hcol)]
    simp [print_set_color]

/-- Witness of C6: `print_set_color(4, 0)` then `print_char('Z')` from the start state. -/
theorem set_color_not_retroactive_witness :
    (90 ≠ 10 ∧ 90 < 256 ∧ boot.col < 80) ∧
    (print_set_color boot 4 0).buffer = boot.buffer ∧
    (print_set_color boot 4 0).col = boot.col ∧
    (print_set_color boot 4 0).row = boot.row ∧
    (print_char (print_set_color boot 4 0) 90).buffer (cellIndex boot.col boot.row) =
      ⟨90, (print_set_color boot 4 0).color⟩ ∧
    (∀ j, j ≠ cellIndex boot.col boot.row →
      (print_char (print_set_color boot 4 0) 90).buffer j = boot.buffer j) ∧
    (print_char (print_set_color boot 4 0) 90).buffer (cellIndex boot.col boot.row) =
      ⟨90, 0x04⟩ :=
  ⟨by decide, set_color_not_retroactive boot 4 0 90 (by decide) (by decide) (by decide)⟩

/-- C7, counterexample: `print_set_color(16, 0)` sets the attribute to 16, while
(16 & 0x0F) | ((0 & 0x0F) << 4) is 0: a foreground above 15 is not masked. -/
theorem set_color_mask_counterexample :
    (16 < 256 ∧ 0 < 256) ∧
    (print_set_color boot 16 0).color = 16 ∧
    (print_set_color boot 16 0).color ≠ (16 &&& 0x0F) ||| ((0 &&& 0x0F) <<< 4) := by
  decide

/-- C7, amended: for every pair of values fg and bg (8-bit values included),
`print_set_color(fg, bg)` sets the current attribute to (fg + (bg << 4)) mod 256, which
is (fg + ((bg & 0x0F) << 4)) mod 256: the background is cut to 4 bits by the truncation
to a byte, the foreground is not masked.  For fg ≤ 15 the attribute is
(fg & 0x0F) | ((bg & 0x0F) << 4), with fg in the low nibble and bg mod 16 in the high
nibble. -/
theorem set_color_attribute (s : Console) (fg bg : Nat) :
    (print_set_color s fg bg).color = (fg + ((bg &&& 0x0F) <<< 4)) % 256 ∧
    (fg ≤ 15 →
      (print_set_color s fg bg).color = (fg &&& 0x0F) ||| ((bg &&& 0x0F) <<< 4) ∧
      (print_set_color s fg bg).color % 16 = fg ∧
      (print_set_color s fg bg).color / 16 = bg % 16) := by
  have hand : ∀ x : Nat, x &&& 0x0F = x % 16 := fun x => Nat.and_pow_two_sub_one_eq_mod x 4
  have hor : ∀ f < 16, ∀ b < 16, f ||| (b <<< 4) = f + b * 16 := by decide
  have hcolor : (print_set_color s fg bg).color = (fg + (bg <<< 4)) % 256 := rfl
  rw [hcolor, hand bg, Nat.shiftLeft_eq, Nat.shiftLeft_eq]
  constructor
  · omega
  · intro h15
    have e := hor (fg % 16) (Nat.mod_lt _ (by decide)) (bg % 16) (Nat.mod_lt _ (by decide))
    rw [Nat.shiftLeft_eq] at e
    rw [hand fg, e]
    refine ⟨by omega, by omega, by omega⟩

/-- Witness of C7 (amended): `print_set_color(4, 0)` gives 0x04 and
`print_set_color(15, 255)` gives 0xFF. -/
theorem set_color_attribute_witness :
    (print_set_color boot 4 0).color = 4 ∧ (print_set_color boot 15 255).color = 255 ∧
    (print_set_color boot 15 255).color = (15 &&& 0x0F) ||| ((255 &&& 0x0F) <<< 4) :=
  ⟨((set_color_attribute boot 4 0).2 (by decide)).1,
   (set_color_attribute boot 15 255).1,
   ((set_color_attribute boot 15 255).2 (by decide)).1⟩

/-- C8: for every console state, `print_clear()` leaves every one of the 2000 cells
holding a space with the current attribute, and leaves the cursor (col, row) and the
current attribute unchanged. -/
theorem print_clear_fills (s : Console) (j : Nat) (hj : j < 2000) :
    (print_clear s).buffer j = ⟨32, s.color⟩ ∧
    (print_clear s).col = s.col ∧ (print_clear s).row = s.row ∧
    (print_clear s).color = s.color := by
  obtain ⟨a1, a2, a3, a4, _⟩ := print_clear_spec s
  exact ⟨by rw [a4 j, if_pos hj], a1, a2, a3⟩

/-- Witness of C8: the last cell of the screen, from the start state. -/
theorem print_clear_fills_witness :
    1999 < 2000 ∧
    (print_clear boot).buffer 1999 = ⟨32, boot.color⟩ ∧
    (print_clear boot).col = boot.col ∧ (print_clear boot).row = boot.row ∧
    (print_clear boot).color = boot.color :=
  ⟨by decide, print_clear_fills boot 1999 (by decide)⟩

end BrewKernel

namespace VoidKernel

/-! ## Claims about the keyboard driver and the palette controller -/

/-- C9, the code at the failing input: on the press scancode 0x1E (mapped to 'a') with
the byte 'A' lying behind the local `c` in memory, `keyboard_handler` appends 'a' and
the terminator to `key_buffer`, but its echo `kernel_puts(&c)` writes two screen cells,
'a' and then 'A', and advances the screen cursor by two: more than the one character
of the claim. -/
theorem keyboard_echo_overrun :
    keyboard_map.getD 0x1E 0 = 97 ∧
    (keyboard_handler start 0x1E [65]).key_buffer 0 = 97 ∧
    (keyboard_handler start 0x1E [65]).key_buffer 1 = 0 ∧
    (keyboard_handler start 0x1E [65]).cursor_position = 1 ∧
    (keyboard_handler start 0x1E [65]).vga_buffer 0 = 0x0F61 ∧
    (keyboard_handler start 0x1E [65]).vga_buffer 1 = 0x0F41 ∧
    (keyboard_handler start 0x1E [65]).puts_cursor_position = 2 := by
  decide

end VoidKernel

namespace BrewKernel

/-- C10: for every index i and every 8-bit r, g, b, on every sequence of status reads
on which `print_set_palette_color(i, r, g, b)` returns (it returns as soon as a tested
read of port 0x3DA shows bit 3 clear), the port writes it performs are exactly, in this
order, i to the index port 0x3C8, then r>>2, g>>2, b>>2 to the data port 0x3C9; a model
DAC programmed by these writes reads back (r>>2, g>>2, b>>2) at entry i, each in 0..63. -/
theorem set_palette_color_writes (status : List Nat) (index red green blue : Nat)
    (hi : index < 256) (hr : red < 256) (hg : green < 256) (hb : blue < 256) :
    ((∃ n, 2 * n + 1 < status.length ∧ status.getD (2 * n + 1) 0 &&& 8 = 0) →
      (print_set_palette_color status index red green blue).isSome = true) ∧
    (∀ events left,
      print_set_palette_color status index red green blue = some (events, left) →
      port_writes events =
        [(0x3C8, index), (0x3C9, red >>> 2), (0x3C9, green >>> 2), (0x3C9, blue >>> 2)] ∧
      (∀ d : Dac, ((port_writes events).foldl Dac.write d).read index =
        (red >>> 2, green >>> 2, blue >>> 2)) ∧
      red >>> 2 < 64 ∧ green >>> 2 < 64 ∧ blue >>> 2 < 64) := by
  have hr64 : red >>> 2 < 64 := by rw [Nat.shiftRight_eq_div_pow]; omega
  have hg64 : green >>> 2 < 64 := by rw [Nat.shiftRight_eq_div_pow]; omega
  have hb64 : blue >>> 2 < 64 := by rw [Nat.shiftRight_eq_div_pow]; omega
  constructor
  · rintro ⟨n, hlen, hbit⟩
    have := retrace_wait_returns n status hlen hbit
    unfold print_set_palette_color
    cases hw : retrace_wait status with
    | none => rw [hw] at this; simp at this
    | some r => rfl
  · intro events left h
    unfold print_set_palette_color at h
    cases hw : retrace_wait status with
    | none => rw [hw] at h; simp at h
    | some r =>
      obtain ⟨ev, lf⟩ := r
      rw [hw] at h
      simp only [Option.some.injEq, Prod.mk.injEq] at h
      have hreads := retrace_wait_reads status.length status ev lf (Nat.le_refl _) hw
      have hwrites : port_writes events =
          [(0x3C8, index), (0x3C9, red >>> 2), (0x3C9, green >>> 2), (0x3C9, blue >>> 2)] := by
        rw [← h.1, port_writes_append, hreads]
        rfl
      refine ⟨hwrites, ?_, hr64, hg64, hb64⟩
      intro d
      rw [hwrites]
      simp [Dac.write, Dac.read, Nat.mod_eq_of_lt hi, Nat.mod_eq_of_lt hr64,
        Nat.mod_eq_of_lt hg64, Nat.mod_eq_of_lt hb64]

/-- Witness of C10: `print_set_palette_color(7, 172, 140, 104)` when the second status
read shows bit 3 clear. -/
theorem set_palette_color_writes_witness :
    (7 < 256 ∧ 172 < 256 ∧ 140 < 256 ∧ 104 < 256) ∧
    (print_set_palette_color [8, 0] 7 172 140 104).isSome = true ∧
    port_writes [PortEvent.inb 0x3DA 8, PortEvent.inb 0x3DA 0, PortEvent.outb 0x3C8 7,
        PortEvent.outb 0x3C9 (172 >>> 2), PortEvent.outb 0x3C9 (140 >>> 2),
        PortEvent.outb 0x3C9 (104 >>> 2)] =
      [(0x3C8, 7), (0x3C9, 172 >>> 2), (0x3C9, 140 >>> 2), (0x3C9, 104 >>> 2)] :=
  ⟨by decide,
   (set_palette_color_writes [8, 0] 7 172 140 104 (by decide) (by decide) (by decide)
      (by decide)).1 ⟨0, by decide, by decide⟩,
   ((set_palette_color_writes [8, 0] 7 172 140 104 (by decide) (by decide) (by decide)
      (by decide)).2 _ [] (by decide)).1⟩

end BrewKernel

namespace BrewKernel

/-! ## The retrace wait, continued -/

/-- The retrace wait ends on a read that shows bit 3 clear: the last read it makes is
the tested read that ended the loop. -/
theorem retrace_wait_last_read (n : Nat) :
    ∀ (status : List Nat) (events : List PortEvent) (left : List Nat),
      status.length ≤ n → retrace_wait status = some (events, left) →
      ∃ reads v, events = reads ++ [PortEvent.inb 0x3DA v] ∧ v &&& 8 = 0 := by
  induction n using Nat.strong_induction_on with
  | _ n ih =>
    intro status events left hlen h
    match status, hlen, h with
    | [], _, h => simp [retrace_wait] at h
    | [_], _, h => simp [retrace_wait] at h
    | first :: second :: rest, hlen, h =>
      unfold retrace_wait at h
      by_cases hb : second &&& 8 ≠ 0
      · rw [if_pos hb] at h
        cases hrec : retrace_wait rest with
        | none => rw [hrec] at h; simp at h
        | some r =>
          obtain ⟨ev, lf⟩ := r
          rw [hrec] at h
          simp only [Option.some.injEq, Prod.mk.injEq] at h
          have hlen2 : rest.length < n := by simp at hlen; omega
          obtain ⟨reads, v, e, hv⟩ := ih rest.length hlen2 rest ev lf (Nat.le_refl _) hrec
          refine ⟨PortEvent.inb 0x3DA first :: PortEvent.inb 0x3DA second :: reads, v, ?_, hv⟩
          rw [← h.1, e]
          rfl
      · rw [if_neg hb] at h
        simp only [Option.some.injEq, Prod.mk.injEq] at h
        refine ⟨[PortEvent.inb 0x3DA first], second, ?_, by simpa using hb⟩
        rw [← h.1]
        rfl

end BrewKernel

namespace VoidKernel

/-! ## Interrupt table -/

theorem low_half (a : Nat) : (a &&& 0xFFFF) % 65536 = a % 2 ^ 16 := by
  have : a &&& 0xFFFF = a % 2 ^ 16 := Nat.and_pow_two_sub_one_eq_mod a 16
  rw [this]
  exact Nat.mod_eq_of_lt (Nat.mod_lt _ (by decide))

theorem high_half (a : Nat) : ((a >>> 16) &&& 0xFFFF) % 65536 = (a / 2 ^ 16) % 2 ^ 16 := by
  rw [low_half, Nat.shiftRight_eq_div_pow]

/-- What `set_idt_entry` stores. -/
theorem set_idt_entry_spec (s : Interrupts) (num base sel flags : Nat) :
    ((set_idt_entry s num base sel flags).idt num =
      { base_low := base % 2 ^ 16, sel := sel, always0 := 0, flags := flags,
        base_high := (base / 2 ^ 16) % 2 ^ 16 }) ∧
    (∀ m, m ≠ num → (set_idt_entry s num base sel flags).idt m = s.idt m) ∧
    (set_idt_entry s num base sel flags).idt_ptr = s.idt_ptr ∧
    (set_idt_entry s num base sel flags).loaded = s.loaded := by
  refine ⟨?_, ?_, rfl, rfl⟩
  · simp only [set_idt_entry, if_pos]
    rw [low_half, high_half]
  · intro m hm
    simp only [set_idt_entry, if_neg hm]

theorem halves_recombine (a : Nat) (h : a < 2 ^ 32) :
    a % 2 ^ 16 + 2 ^ 16 * ((a / 2 ^ 16) % 2 ^ 16) = a := by
  omega

end VoidKernel

namespace VoidKernel

/-! ## The input buffer over a sequence of keyboard interrupts -/

theorem getD_snoc (chars : List Nat) (c j : Nat) :
    (chars ++ [c]).getD j 0 =
      if j = chars.length + 1 then 0 else if j = chars.length then c else chars.getD j 0 := by
  by_cases h : j < chars.length
  · rw [List.getD_append _ _ _ _ h, if_neg (by omega), if_neg (by omega)]
  · by_cases e : j = chars.length
    · rw [List.getD_append_right _ _ _ _ (by omega), if_neg (by omega), if_pos e, e,
        Nat.sub_self]
      rfl
    · rw [List.getD_eq_default _ _ (by simp; omega), List.getD_eq_default _ _ (by omega)]
      split_ifs <;> rfl

theorem mapped_chars_cons (e : Nat × List Nat) (rest : List (Nat × List Nat)) :
    mapped_chars (e :: rest) = (mapped_press e.1).toList ++ mapped_chars rest := by
  unfold mapped_chars
  cases h : mapped_press e.1 with
  | none => simp [List.filterMap_cons, h]
  | some c => simp [List.filterMap_cons, h]

theorem mapped_chars_replicate (n scancode : Nat) (after : List Nat) (c : Nat)
    (h : mapped_press scancode = some c) :
    mapped_chars (List.replicate n (scancode, after)) = List.replicate n c := by
  induction n with
  | zero => rfl
  | succ m ih =>
    rw [List.replicate_succ, mapped_chars_cons, ih, h]
    rfl

/-- One keyboard interrupt keeps the input buffer in step with the characters of the
mapped presses. -/
theorem keyInv_step (s : Kernel) (chars : List Nat) (scancode : Nat) (after : List Nat)
    (h : KeyInv s chars) (hlen : chars.length < 65535) :
    KeyInv (keyboard_handler s scancode after) (chars ++ (mapped_press scancode).toList) := by
  obtain ⟨h1, h2, h3, h4⟩ := h
  by_cases hrel : scancode &&& 0x80 ≠ 0
  · rw [keyboard_handler_release s scancode after hrel]
    have : mapped_press scancode = none := by simp [mapped_press, hrel]
    rw [this]
    simpa using ⟨h1, h2, h3, h4⟩
  · have hpress : scancode &&& 0x80 = 0 := by simpa using hrel
    by_cases hz : keyboard_map.getD scancode 0 = 0
    · rw [keyboard_handler_unmapped s scancode after hpress hz]
      have : mapped_press scancode = none := by
        unfold mapped_press
        rw [if_neg hrel, if_neg (by simpa using hz)]
      rw [this]
      simpa using ⟨h1, h2, h3, h4⟩
    · have hm : mapped_press scancode = some (keyboard_map.getD scancode 0) := by
        unfold mapped_press
        rw [if_neg hrel, if_pos hz]
      rw [hm, keyboard_handler_mapped s scancode after hpress hz]
      obtain ⟨a1, a2, a3⟩ := kernel_puts_keeps (keyboard_map.getD scancode 0 :: after)
        { s with
          key_buffer := fun j =>
            if j = (s.cursor_position + 1) % 65536 then 0
            else if j = s.cursor_position then keyboard_map.getD scancode 0
            else s.key_buffer j,
          key_writes := (s.cursor_position + 1) % 65536 :: s.cursor_position :: s.key_writes,
          cursor_position := (s.cursor_position + 1) % 65536 }
      have e : (s.cursor_position + 1) % 65536 = chars.length + 1 := by
        rw [h1]; exact Nat.mod_eq_of_lt (by omega)
      have e2 : (chars.length + 1) % 65536 = chars.length + 1 := Nat.mod_eq_of_lt (by omega)
      refine ⟨?_, ?_, ?_, ?_⟩
      · rw [a2]
        simp only [Option.toList, List.length_append, List.length_singleton]
        exact e
      · intro i
        rw [a1]
        simp only [Option.toList, h1, e2]
        rw [getD_snoc, h2 i]
      · intro k hk
        rw [a3] at hk
        simp only [h1, e2, List.mem_cons] at hk
        simp only [Option.toList, List.length_append, List.length_singleton]
        rcases hk with hk | hk | hk
        · omega
        · omega
        · have := h3 k hk; omega
      · intro _
        rw [a3]
        simp only [Option.toList, List.length_append, List.length_singleton, h1, e2]
        exact List.mem_cons_self _ _

/-- A sequence of keyboard interrupts keeps the input buffer in step with the
characters of the mapped presses, as long as the write cursor does not wrap. -/
theorem keyInv_run (events : List (Nat × List Nat)) :
    ∀ (s : Kernel) (chars : List Nat), KeyInv s chars →
      chars.length + (mapped_chars events).length ≤ 65535 →
      KeyInv (keyboard_run s events) (chars ++ mapped_chars events) := by
  induction events with
  | nil =>
    intro s chars h _
    simpa [keyboard_run, mapped_chars] using h
  | cons e rest ih =>
    intro s chars h hlen
    rw [mapped_chars_cons] at hlen ⊢
    have hstep : chars.length < 65535 ∨ (mapped_press e.1).toList = [] := by
      cases hm : mapped_press e.1 with
      | none => right; rfl
      | some c =>
        left
        rw [hm] at hlen
        simp at hlen
        omega
    have hs : KeyInv (keyboard_handler s e.1 e.2) (chars ++ (mapped_press e.1).toList) := by
      rcases hstep with hlt | hnil
      · exact keyInv_step s chars e.1 e.2 h hlt
      · have hnone : mapped_press e.1 = none := by
          cases hm : mapped_press e.1 with
          | none => rfl
          | some c => rw [hm] at hnil; simp at hnil
        rw [hnil, List.append_nil]
        have hsame : keyboard_handler s e.1 e.2 = s := by
          unfold mapped_press at hnone
          by_cases hrel : e.1 &&& 0x80 ≠ 0
          · exact keyboard_handler_release s e.1 e.2 hrel
          · rw [if_neg hrel] at hnone
            by_cases hz : keyboard_map.getD e.1 0 = 0
            · exact keyboard_handler_unmapped s e.1 e.2 (by simpa using hrel) hz
            · rw [if_pos hz] at hnone
              simp at hnone
        rw [hsame]
        exact h
    have := ih (keyboard_handler s e.1 e.2) (chars ++ (mapped_press e.1).toList) hs
      (by simp only [List.length_append] at hlen ⊢; omega)
    rw [List.append_assoc] at this
    exact this

theorem keyInv_start (s : Kernel) (hb : ∀ i, s.key_buffer i = 0) (hc : s.cursor_position = 0)
    (hw : s.key_writes = []) : KeyInv s [] := by
  refine ⟨by simpa using hc, ?_, ?_, ?_⟩
  · intro i; rw [hb i]; rfl
  · intro k hk; rw [hw] at hk; simp at hk
  · intro h; exact absurd rfl h

end VoidKernel

namespace VoidKernel

/-! ## The cursor of the counter-based console -/

theorem kernel_puts_char_cursor (k : Kernel) (c : Nat) (h0 : c ≠ 0) (hn : c ≠ 10) :
    (kernel_puts k [c]).puts_cursor_position = (k.puts_cursor_position + 1) % 65536 := by
  simp [kernel_puts, h0, hn]

theorem kernel_puts_newline_cursor (k : Kernel) :
    (kernel_puts k [10]).puts_cursor_position =
      (k.puts_cursor_position + (80 - k.puts_cursor_position % 80)) % 65536 := by
  simp [kernel_puts]

end VoidKernel

namespace BrewKernel

open VoidKernel

/-! ## Where the two consoles place characters -/

/-- Where `print_char` stores a character other than newline, and the cursor it
leaves, as long as the wrap does not scroll. -/
theorem print_char_place (s : Console) (c : Nat) (hc : c ≠ 10) (h80 : s.col ≤ 80)
    (hr : s.row < 25) (hw : s.col = 80 → s.row < 24) :
    (print_char s c).accessed.headD 0 =
      (if s.col = 80 then 80 * (s.row + 1) else 80 * s.row + s.col) ∧
    (print_char s c).col = (if s.col = 80 then 1 else s.col + 1) ∧
    (print_char s c).row = (if s.col = 80 then s.row + 1 else s.row) := by
  by_cases h : s.col = 80
  · rw [print_char_wrap s c hc (by omega), print_newline_advance s (hw h)]
    refine ⟨?_, by rw [if_pos h], by rw [if_pos h]; rfl⟩
    rw [if_pos h]
    simp only [store_accessed, List.headD_cons]
    rw [cellIndex_small 0 (s.row + 1) (by omega) (by have := hw h; omega)]
    omega
  · rw [print_char_inline s c hc (by omega)]
    refine ⟨?_, by rw [if_neg h], by rw [if_neg h]; rfl⟩
    rw [if_neg h]
    simp only [store_accessed, List.headD_cons]
    rw [cellIndex_small s.col s.row h80 hr]
    omega

theorem place_cursor (attr : Nat) (l : Layout) (c : Nat) :
    (Layout.place attr l c).col =
      (if c = 10 then 0 else if l.col = 80 then 1 else l.col + 1) ∧
    (Layout.place attr l c).row =
      (if c = 10 then l.row + 1 else if l.col = 80 then l.row + 1 else l.row) := by
  unfold Layout.place
  split_ifs <;> exact ⟨rfl, rfl⟩

/-- The two consoles store the characters of a string at the same cells, as long as the
layout stays on the screen and no newline comes after a line whose length is a
multiple of 80. -/
theorem cells_agree (str : List Nat) :
    ∀ (m : Nat) (s : Console) (l : Layout) (k : Kernel),
      s.col = l.col → s.row = l.row → l.col ≤ 80 →
      k.puts_cursor_position = 80 * l.row + l.col →
      l.col % 80 = m % 80 →
      (∀ c ∈ str, c < 256) →
      newlines_off_boundary m str →
      (str.foldl (Layout.place s.color) l).row < 25 →
      console_cells s str = kernel_cells k str := by
  induction str with
  | nil => intro m s l k _ _ _ _ _ _ _ _; rfl
  | cons c rest ih =>
    intro m s l k hcol hrow h80 hk hm hbytes hnob hfit
    have hc256 : c % 256 = c := Nat.mod_eq_of_lt (hbytes c (List.mem_cons_self _ _))
    have hrest : ∀ x ∈ rest, x < 256 := fun x hx => hbytes x (List.mem_cons_of_mem _ hx)
    have hfit1 : (Layout.place s.color l c).row < 25 :=
      Nat.lt_of_le_of_lt (foldl_place_row_le s.color rest _) hfit
    obtain ⟨pc, pr⟩ := place_cursor s.color l c
    have hcolor := print_char_color s c
    unfold console_cells kernel_cells
    simp only [hc256]
    by_cases h0 : c = 0
    · rw [if_pos h0, if_pos h0]
    · rw [if_neg h0, if_neg h0]
      by_cases hn : c = 10
      · rw [if_pos hn, if_pos hn]
        subst hn
        rw [if_pos rfl] at pc pr
        unfold newlines_off_boundary at hnob
        rw [if_pos rfl] at hnob
        have hlt : l.col < 80 := by omega
        have hrow24 : s.row < 24 := by rw [hrow]; omega
        have hnl : print_char s 10 = { s with col := 0, row := s.row + 1 } := by
          rw [print_char_newline, print_newline_advance s hrow24]
        apply ih 0 (print_char s 10) (Layout.place s.color l 10) (kernel_puts k [10])
        · rw [pc, hnl]
        · rw [pr, hnl, ← hrow]
        · rw [pc]; omega
        · rw [kernel_puts_newline_cursor, hk, pc, pr]
          have e : (80 * l.row + l.col) % 80 = l.col := by omega
          have e2 : 80 * l.row + l.col + (80 - l.col) = 80 * (l.row + 1) + 0 := by omega
          rw [e, e2]
          exact Nat.mod_eq_of_lt (by omega)
        · rw [pc]
        · exact hrest
        · exact hnob.2
        · rw [hcolor]; exact hfit
      · rw [if_neg hn, if_neg hn]
        rw [if_neg hn] at pc pr
        unfold newlines_off_boundary at hnob
        rw [if_neg hn] at hnob
        have hr25 : s.row < 25 := by
          rw [hrow]
          have := place_row_le s.color l c
          omega
        have hw : s.col = 80 → s.row < 24 := by
          intro h
          rw [hcol] at h
          rw [if_pos h] at pr
          rw [hrow]; omega
        obtain ⟨q1, q2, q3⟩ := print_char_place s c hn (by rw [hcol]; exact h80) hr25 hw
        have hhead : (print_char s c).accessed.headD 0 = k.puts_cursor_position := by
          rw [q1, hk, hcol, hrow]
          split_ifs with h
          · rw [h]; omega
          · rfl
        rw [hhead]
        congr 1
        apply ih (m + 1) (print_char s c) (Layout.place s.color l c) (kernel_puts k [c])
        · rw [pc, q2, hcol]
        · rw [pr, q3, hcol, hrow]
        · rw [pc]; split_ifs <;> omega
        · rw [kernel_puts_char_cursor k c h0 hn, hk, pc, pr]
          have hb : 80 * l.row + l.col + 1 < 65536 := by rw [← hrow]; omega
          rw [Nat.mod_eq_of_lt hb]
          split_ifs with h
          · rw [h]; omega
          · rfl
        · rw [pc]; split_ifs with h <;> omega
        · exact hrest
        · exact hnob
        · rw [hcolor]; exact hfit

end BrewKernel

namespace VoidKernel

/-! ## A run of characters on the counter-based console -/

theorem kernel_puts_cons (k : Kernel) (c : Nat) (rest : List Nat) (h0 : c ≠ 0) :
    kernel_puts k (c :: rest) = kernel_puts (kernel_puts k [c]) rest := by
  by_cases hn : c = 10
  · simp [kernel_puts, hn]
  · simp [kernel_puts, h0, hn]

theorem kernel_cells_char (k : Kernel) (c : Nat) (rest : List Nat) (h0 : c ≠ 0)
    (hn : c ≠ 10) :
    kernel_cells k (c :: rest) =
      k.puts_cursor_position :: kernel_cells (kernel_puts k [c]) rest := by
  rw [kernel_cells, if_neg h0, if_neg hn]

theorem kernel_cells_newline (k : Kernel) (rest : List Nat) :
    kernel_cells k (10 :: rest) = kernel_cells (kernel_puts k [10]) rest := by
  rw [kernel_cells, if_neg (by decide), if_pos rfl]

/-- Characters other than newline are stored by `kernel_puts` at consecutive cells
from its cursor on. -/
theorem kernel_cells_line (cs : List Nat) :
    ∀ (k : Kernel) (rest : List Nat), (∀ c ∈ cs, c ≠ 10 ∧ c ≠ 0) →
      k.puts_cursor_position + cs.length < 65536 →
      kernel_cells k (cs ++ rest) =
        List.range' k.puts_cursor_position cs.length ++ kernel_cells (kernel_puts k cs) rest ∧
      (kernel_puts k cs).puts_cursor_position = k.puts_cursor_position + cs.length := by
  induction cs with
  | nil => intro k rest _ _; exact ⟨rfl, rfl⟩
  | cons c more ih =>
    intro k rest hcs hlen
    have hc := hcs c (List.mem_cons_self _ _)
    have hlen2 : k.puts_cursor_position + (more.length + 1) < 65536 := by simpa using hlen
    have hcur : (kernel_puts k [c]).puts_cursor_position = k.puts_cursor_position + 1 := by
      rw [kernel_puts_char_cursor k c hc.2 hc.1]
      exact Nat.mod_eq_of_lt (by omega)
    obtain ⟨a1, a2⟩ := ih (kernel_puts k [c]) rest
      (fun x hx => hcs x (List.mem_cons_of_mem _ hx)) (by rw [hcur]; omega)
    rw [kernel_puts_cons k c more hc.2]
    constructor
    · rw [List.cons_append, kernel_cells_char k c _ hc.2 hc.1, a1, hcur, List.length_cons,
        List.range'_succ]
      rfl
    · rw [a2, hcur, List.length_cons]
      omega

end VoidKernel

namespace BrewKernel

open VoidKernel

/-! ## A run of characters inside one row, and lines joined by newlines -/

theorem console_cells_char (s : Console) (c : Nat) (rest : List Nat) (h0 : c ≠ 0)
    (hn : c ≠ 10) (hb : c < 256) :
    console_cells s (c :: rest) =
      (print_char s c).accessed.headD 0 :: console_cells (print_char s c) rest := by
  rw [console_cells]
  simp only [Nat.mod_eq_of_lt hb, if_neg h0, if_neg hn]

theorem console_cells_newline (s : Console) (rest : List Nat) :
    console_cells s (10 :: rest) = console_cells (print_char s 10) rest := by
  rw [console_cells]
  simp

/-- Characters other than newline that fit in the rest of the row are stored by
`print_str` at consecutive cells from the cursor on. -/
theorem console_cells_line (cs : List Nat) :
    ∀ (s : Console) (rest : List Nat), (∀ c ∈ cs, c ≠ 10 ∧ c ≠ 0 ∧ c < 256) →
      s.col + cs.length ≤ 80 → s.row < 25 →
      console_cells s (cs ++ rest) =
        List.range' (80 * s.row + s.col) cs.length ++ console_cells (print_chars s cs) rest := by
  induction cs with
  | nil => intro s rest _ _ _; rfl
  | cons c more ih =>
    intro s rest hcs hlen hrow
    have hc := hcs c (List.mem_cons_self _ _)
    have hlen2 : s.col + (more.length + 1) ≤ 80 := by simpa using hlen
    have hne : s.col ≠ 80 := by omega
    obtain ⟨q1, q2, q3⟩ := print_char_place s c hc.1 (by omega) hrow
      (fun h => absurd h hne)
    rw [if_neg hne] at q1 q2 q3
    have := ih (print_char s c) rest (fun x hx => hcs x (List.mem_cons_of_mem _ hx))
      (by rw [q2]; omega) (by rw [q3]; exact hrow)
    rw [print_chars_cons, List.cons_append, console_cells_char s c _ hc.2.1 hc.1 hc.2.2,
      this, q1, q2, q3, List.length_cons, List.range'_succ]
    rfl

theorem newlines_off_boundary_line (l : List Nat) :
    ∀ (m : Nat) (rest : List Nat), (∀ c ∈ l, c ≠ 10) →
      (newlines_off_boundary m (l ++ rest) ↔ newlines_off_boundary (m + l.length) rest) := by
  induction l with
  | nil => intro m rest _; simp
  | cons c more ih =>
    intro m rest hl
    have hc := hl c (List.mem_cons_self _ _)
    rw [List.cons_append]
    unfold newlines_off_boundary
    rw [if_neg hc, ih (m + 1) rest (fun x hx => hl x (List.mem_cons_of_mem _ hx))]
    have e : m + 1 + more.length = m + (c :: more).length := by simp; omega
    rw [e]
    cases rest <;> simp [newlines_off_boundary]

/-- In lines without newline characters and of lengths that are not multiples of 80,
joined by newlines, every newline comes after such a line. -/
theorem newlines_off_boundary_join (lines : List (List Nat))
    (h : ∀ l ∈ lines, l.length % 80 ≠ 0 ∧ ∀ c ∈ l, c ≠ 10) :
    newlines_off_boundary 0 (join_lines lines) := by
  induction lines with
  | nil => simp [join_lines, newlines_off_boundary]
  | cons l more ih =>
    have hl := h l (List.mem_cons_self _ _)
    cases more with
    | nil =>
      have e : join_lines [l] = l ++ [] := by simp [join_lines]
      rw [e, newlines_off_boundary_line l 0 [] hl.2]
      simp [newlines_off_boundary]
    | cons l2 more2 =>
      have ej : join_lines (l :: l2 :: more2) = l ++ 10 :: join_lines (l2 :: more2) := rfl
      rw [ej, newlines_off_boundary_line l 0 _ hl.2]
      unfold newlines_off_boundary
      rw [if_pos rfl]
      exact ⟨by simpa using hl.1, ih (fun x hx => h x (List.mem_cons_of_mem _ hx))⟩

/-- The same when a newline ends the last line. -/
theorem newlines_off_boundary_join_newline (lines : List (List Nat)) (hne : lines ≠ [])
    (h : ∀ l ∈ lines, l.length % 80 ≠ 0 ∧ ∀ c ∈ l, c ≠ 10) :
    newlines_off_boundary 0 (join_lines lines ++ [10]) := by
  induction lines with
  | nil => exact absurd rfl hne
  | cons l more ih =>
    have hl := h l (List.mem_cons_self _ _)
    cases more with
    | nil =>
      have e : join_lines [l] = l := rfl
      rw [e, newlines_off_boundary_line l 0 [10] hl.2]
      unfold newlines_off_boundary
      rw [if_pos rfl]
      exact ⟨by simpa using hl.1, by simp [newlines_off_boundary]⟩
    | cons l2 more2 =>
      have ej : join_lines (l :: l2 :: more2) ++ [10] =
          l ++ 10 :: (join_lines (l2 :: more2) ++ [10]) := by
        show (l ++ 10 :: join_lines (l2 :: more2)) ++ [10] = _
        simp
      rw [ej, newlines_off_boundary_line l 0 _ hl.2]
      unfold newlines_off_boundary
      rw [if_pos rfl]
      exact ⟨by simpa using hl.1,
        ih (by simp) (fun x hx => h x (List.mem_cons_of_mem _ hx))⟩

theorem join_lines_lt (lines : List (List Nat)) (h : ∀ l ∈ lines, ∀ c ∈ l, c < 256) :
    ∀ c ∈ join_lines lines, c < 256 := by
  induction lines with
  | nil => intro c hc; simp [join_lines] at hc
  | cons l more ih =>
    cases more with
    | nil => intro c hc; exact h l (List.mem_cons_self _ _) c hc
    | cons l2 more2 =>
      intro c hc
      have ej : join_lines (l :: l2 :: more2) = l ++ 10 :: join_lines (l2 :: more2) := rfl
      rw [ej, List.mem_append, List.mem_cons] at hc
      rcases hc with hc | hc | hc
      · exact h l (List.mem_cons_self _ _) c hc
      · rw [hc]; omega
      · exact ih (fun x hx => h x (List.mem_cons_of_mem _ hx)) c hc

/-- On a cleared screen with both cursors at cell 0, lines without newline characters
whose lengths are not multiples of 80 and whose layout stays on the screen are placed
at the same cells by both consoles. -/
theorem cells_agree_lines (s0 : Console) (k0 : Kernel) (lines : List (List Nat))
    (hcol : s0.col = 0) (hrow : s0.row = 0) (hk : k0.puts_cursor_position = 0)
    (hl : ∀ l ∈ lines, l.length % 80 ≠ 0 ∧ ∀ c ∈ l, c ≠ 10 ∧ c < 256)
    (hfit : (reference_layout s0.color (join_lines lines)).row < 25) :
    console_cells (print_clear s0) (join_lines lines) = kernel_cells k0 (join_lines lines) := by
  obtain ⟨a1, a2, a3, _, _⟩ := print_clear_spec s0
  exact cells_agree (join_lines lines) 0 (print_clear s0)
    { cells := fun _ => ⟨32, s0.color⟩, col := 0, row := 0 } k0
    (by rw [a1, hcol]) (by rw [a2, hrow]) (by simp) (by rw [hk]; rfl) rfl
    (join_lines_lt lines (fun l h c hc => ((hl l h).2 c hc).2))
    (newlines_off_boundary_join lines (fun l h => ⟨(hl l h).1, fun c hc => ((hl l h).2 c hc).1⟩))
    (by rw [a3]; exact hfit)

/-- On a cleared screen with both cursors at cell 0, every string of bytes in which each
newline comes after a line whose length is not a multiple of 80, and whose layout stays
on the screen, is placed at the same cells by both consoles; the string may end in a
newline or in an unfinished line of any length. -/
theorem cells_agree_str (s0 : Console) (k0 : Kernel) (str : List Nat)
    (hcol : s0.col = 0) (hrow : s0.row = 0) (hk : k0.puts_cursor_position = 0)
    (hb : ∀ c ∈ str, c < 256) (hnob : newlines_off_boundary 0 str)
    (hfit : (reference_layout s0.color str).row < 25) :
    console_cells (print_clear s0) str = kernel_cells k0 str := by
  obtain ⟨a1, a2, a3, _, _⟩ := print_clear_spec s0
  exact cells_agree str 0 (print_clear s0)
    { cells := fun _ => ⟨32, s0.color⟩, col := 0, row := 0 } k0
    (by rw [a1, hcol]) (by rw [a2, hrow]) (by simp) (by rw [hk]; rfl) rfl
    hb hnob (by rw [a3]; exact hfit)

/-- A full row of 80 characters, a newline and one more character: `print_str` stores
the last character at cell 80, `kernel_puts` at cell 160. -/
theorem cells_full_row (s : Console) (k : Kernel)
    (hcol : s.col = 0) (hrow : s.row = 0) (hk : k.puts_cursor_position = 0) :
    console_cells s (List.replicate 80 88 ++ [10, 89]) = List.range' 0 80 ++ [80] ∧
    kernel_cells k (List.replicate 80 88 ++ [10, 89]) = List.range' 0 80 ++ [160] := by
  have hx : ∀ c ∈ List.replicate 80 88, c ≠ 10 ∧ c ≠ 0 ∧ c < 256 := by
    intro c hc; rw [List.eq_of_mem_replicate hc]; decide
  constructor
  · rw [console_cells_line (List.replicate 80 88) s [10, 89] hx
      (by rw [hcol]; simp) (by rw [hrow]; omega)]
    obtain ⟨b1, b2, _, _⟩ := print_chars_line (List.replicate 80 88) s
      (fun c hc => (hx c hc).1) (by rw [hcol]; simp) (by rw [hrow]; omega)
    have c1 : (print_chars s (List.replicate 80 88)).col = 80 := by rw [b1, hcol]; simp
    have c2 : (print_chars s (List.replicate 80 88)).row = 0 := by rw [b2, hrow]
    have hnl : print_char (print_chars s (List.replicate 80 88)) 10 =
        { print_chars s (List.replicate 80 88) with col := 0, row := 0 + 1 } := by
      rw [print_char_newline, print_newline_advance _ (by rw [c2]; omega), c2]
    obtain ⟨q1, _, _⟩ := print_char_place
      { print_chars s (List.replicate 80 88) with col := 0, row := 0 + 1 } 89
      (by decide) (by simp) (by simp) (by simp)
    have e : console_cells (print_chars s (List.replicate 80 88)) [10, 89] = [80] := by
      rw [console_cells_newline, hnl,
        console_cells_char _ 89 [] (by decide) (by decide) (by decide), q1]
      simp [console_cells]
    rw [e, hrow, hcol]
    simp
  · obtain ⟨a1, a2⟩ := kernel_cells_line (List.replicate 80 88) k [10, 89]
      (fun c hc => ⟨(hx c hc).1, (hx c hc).2.1⟩) (by rw [hk]; simp)
    have e : kernel_cells (kernel_puts k (List.replicate 80 88)) [10, 89] = [160] := by
      rw [kernel_cells_newline, kernel_cells_char _ 89 [] (by decide) (by decide),
        kernel_puts_newline_cursor, a2, hk]
      simp [kernel_cells]
    rw [a1, e, hk]
    simp

end BrewKernel

namespace BrewKernel

/-- C11, what the code does: on every sequence of status reads on which
`print_set_palette_color` returns, the port accesses end with a status read that shows
bit 3 clear, followed at once by the write to the index port and the three component
writes: the DAC is written while the most recent status read showed the retrace flag
low, where the claim has this read with bit 3 set. -/
theorem palette_write_follows_flag_low (status : List Nat) (index red green blue : Nat)
    (events : List PortEvent) (left : List Nat)
    (h : print_set_palette_color status index red green blue = some (events, left)) :
    ∃ reads v, v &&& 8 = 0 ∧
      events = reads ++ [PortEvent.inb 0x3DA v, PortEvent.outb 0x3C8 index,
        PortEvent.outb 0x3C9 (red >>> 2), PortEvent.outb 0x3C9 (green >>> 2),
        PortEvent.outb 0x3C9 (blue >>> 2)] := by
  unfold print_set_palette_color at h
  cases hw : retrace_wait status with
  | none => rw [hw] at h; simp at h
  | some r =>
    obtain ⟨ev, lf⟩ := r
    rw [hw] at h
    simp only [Option.some.injEq, Prod.mk.injEq] at h
    obtain ⟨reads, v, e, hv⟩ := retrace_wait_last_read status.length status ev lf
      (Nat.le_refl _) hw
    refine ⟨reads, v, hv, ?_⟩
    rw [← h.1, e]
    simp

/-- Witness of C11, the code at the failing input: on the status reads 0x08 then 0x00,
`print_set_palette_color(1, 0, 113, 255)` returns after these two reads and writes the
index and the three components; the read made last before the index write is the
second one, which shows bit 3 clear, and no read with bit 3 set follows a read with
bit 3 clear. -/
theorem palette_write_with_flag_low :
    print_set_palette_color [0x08, 0x00] 1 0 113 255 =
      some ([PortEvent.inb 0x3DA 0x08, PortEvent.inb 0x3DA 0x00, PortEvent.outb 0x3C8 1,
             PortEvent.outb 0x3C9 0, PortEvent.outb 0x3C9 28, PortEvent.outb 0x3C9 63], []) ∧
    (∃ reads v, v &&& 8 = 0 ∧
      [PortEvent.inb 0x3DA 0x08, PortEvent.inb 0x3DA 0x00, PortEvent.outb 0x3C8 1,
        PortEvent.outb 0x3C9 0, PortEvent.outb 0x3C9 28, PortEvent.outb 0x3C9 63] =
      reads ++ [PortEvent.inb 0x3DA v, PortEvent.outb 0x3C8 1,
        PortEvent.outb 0x3C9 (0 >>> 2), PortEvent.outb 0x3C9 (113 >>> 2),
        PortEvent.outb 0x3C9 (255 >>> 2)]) :=
  ⟨by decide,
   palette_write_follows_flag_low [0x08, 0x00] 1 0 113 255 _ [] (by decide)⟩

/-- C15: scroll step.  For every grid and attribute, `print_newline()` called with
row = 24 leaves every cell (r, c), r in 0..23 and c in 0..79, equal to the previous
cell (r+1, c), leaves every cell of row 24 holding a space with the current attribute,
and leaves the cursor at (col 0, row 24); called with row < 24 it changes no cell and
sets the cursor to (col 0, row+1). -/
theorem print_newline_step (s : Console) :
    (s.row = 24 →
      (∀ r < 24, ∀ c < 80,
        (print_newline s).buffer (c + 80 * r) = s.buffer (c + 80 * (r + 1))) ∧
      (∀ c < 80, (print_newline s).buffer (c + 80 * 24) = ⟨32, s.color⟩) ∧
      (print_newline s).col = 0 ∧ (print_newline s).row = 24 ∧
      (print_newline s).color = s.color) ∧
    (s.row < 24 →
      (print_newline s).buffer = s.buffer ∧
      (print_newline s).col = 0 ∧ (print_newline s).row = s.row + 1 ∧
      (print_newline s).color = s.color) := by
  constructor
  · intro h24
    obtain ⟨a1, a2, a3, a4, _⟩ := print_newline_scroll s (by omega)
    refine ⟨?_, ?_, a1, by rw [a2, h24], a3⟩
    · intro r hr c hc
      have e : c + 80 * r + 80 = c + 80 * (r + 1) := by omega
      rw [a4 (c + 80 * r), if_pos (by omega), e]
    · intro c hc
      rw [a4 (c + 80 * 24), if_neg (by omega), if_pos (by omega)]
  · intro hlt
    rw [print_newline_advance s hlt]
    exact ⟨rfl, rfl, rfl, rfl⟩

/-- Witness of C15: a newline on row 0 and a newline on row 24 of the start state. -/
theorem print_newline_step_witness :
    (boot.row < 24 ∧ (print_newline boot).row = boot.row + 1 ∧
      (print_newline boot).buffer = boot.buffer) ∧
    (({ boot with row := 24 } : Console).row = 24 ∧
      (print_newline { boot with row := 24 }).row = 24 ∧
      (print_newline { boot with row := 24 }).buffer (79 + 80 * 24) = ⟨32, 15⟩) :=
  ⟨⟨by decide, ((print_newline_step boot).2 (by decide)).2.2.1,
      ((print_newline_step boot).2 (by decide)).1⟩,
   ⟨rfl, ((print_newline_step { boot with row := 24 }).1 rfl).2.2.2.1,
      ((print_newline_step { boot with row := 24 }).1 rfl).2.1 79 (by decide)⟩⟩

end BrewKernel

namespace VoidKernel

/-- C12: for every vector n, handler address a, selector s and flags f,
`set_idt_entry(n, a, s, f)` stores base_low = a mod 2^16, base_high = (a / 2^16) mod
2^16, sel = s, flags = f and always0 = 0 in entry n and leaves every other entry
unchanged; base_low + 2^16 * base_high gives back a for every a < 2^32. -/
theorem set_idt_entry_fields (s : Interrupts) (n a sel f : Nat) (_hn : n < 256) :
    ((set_idt_entry s n a sel f).idt n).base_low = a % 2 ^ 16 ∧
    ((set_idt_entry s n a sel f).idt n).base_high = (a / 2 ^ 16) % 2 ^ 16 ∧
    ((set_idt_entry s n a sel f).idt n).sel = sel ∧
    ((set_idt_entry s n a sel f).idt n).flags = f ∧
    ((set_idt_entry s n a sel f).idt n).always0 = 0 ∧
    (∀ m < 256, m ≠ n → (set_idt_entry s n a sel f).idt m = s.idt m) ∧
    (a < 2 ^ 32 →
      ((set_idt_entry s n a sel f).idt n).base_low +
        2 ^ 16 * ((set_idt_entry s n a sel f).idt n).base_high = a) := by
  obtain ⟨a1, a2, _, _⟩ := set_idt_entry_spec s n a sel f
  rw [a1]
  exact ⟨rfl, rfl, rfl, rfl, rfl, fun m _ hm => a2 m hm, fun h => halves_recombine a h⟩

/-- Witness of C12: the keyboard entry, vector 33 with handler address 0x100120. -/
theorem set_idt_entry_fields_witness :
    (33 < 256 ∧ 0x100120 < 2 ^ 32) ∧
    ((set_idt_entry zero_table 33 0x100120 0x08 0x8E).idt 33).base_low
      = 0x0120 ∧
    ((set_idt_entry zero_table 33 0x100120 0x08 0x8E).idt 33).base_high
      = 0x0010 :=
  ⟨by decide,
   (set_idt_entry_fields zero_table 33 0x100120 0x08 0x8E
      (by decide)).1,
   (set_idt_entry_fields zero_table 33 0x100120 0x08 0x8E
      (by decide)).2.1⟩

/-- C13, counterexample: with a prior table whose entries all hold base_low = 1,
`init_idt()` leaves entry 0 as it was, not all zero: the function does not clear the
table. -/
theorem init_idt_zero_counterexample :
    (init_idt used_table 0x104000 0x100120).idt 0 = ⟨1, 0, 0, 0, 0⟩ ∧
    (init_idt used_table 0x104000 0x100120).idt 0 ≠ ⟨0, 0, 0, 0, 0⟩ := by
  decide

/-- C13, amended: for every prior content of the table, after `init_idt()` returns
every entry other than vector 33 is unchanged, hence all zero when the table was all
zero before (as the C global is at boot); entry 33 holds the two 16-bit halves of the
keyboard handler's address, which recombine to the address when it is below 2^32, with
selector 0x08, flags 0x8E and always0 = 0; and the table descriptor passed to
`load_idt` has limit 256*8 - 1 = 2047 and the table's base address. -/
theorem init_idt_table (s : Interrupts) (idt_address handler_address : Nat) :
    (∀ m, m ≠ 33 → (init_idt s idt_address handler_address).idt m = s.idt m) ∧
    ((∀ m, s.idt m = ⟨0, 0, 0, 0, 0⟩) →
      ∀ m, m ≠ 33 → (init_idt s idt_address handler_address).idt m = ⟨0, 0, 0, 0, 0⟩) ∧
    (init_idt s idt_address handler_address).idt 33 =
      { base_low := handler_address % 2 ^ 16, sel := 0x08, always0 := 0, flags := 0x8E,
        base_high := (handler_address / 2 ^ 16) % 2 ^ 16 } ∧
    (handler_address < 2 ^ 32 →
      ((init_idt s idt_address handler_address).idt 33).base_low +
        2 ^ 16 * ((init_idt s idt_address handler_address).idt 33).base_high =
      handler_address) ∧
    (init_idt s idt_address handler_address).loaded =
      { limit := 2047, base := idt_address } :: s.loaded ∧
    (init_idt s idt_address handler_address).idt_ptr = { limit := 2047, base := idt_address } := by
  have e33 : (init_idt s idt_address handler_address).idt 33 =
      { base_low := handler_address % 2 ^ 16, sel := 0x08, always0 := 0, flags := 0x8E,
        base_high := (handler_address / 2 ^ 16) % 2 ^ 16 } := by
    simp only [init_idt, load_idt, IRQ1]
    exact (set_idt_entry_spec _ 33 handler_address 0x08 0x8E).1
  have eother : ∀ m, m ≠ 33 → (init_idt s idt_address handler_address).idt m = s.idt m := by
    intro m hm
    simp only [init_idt, load_idt, IRQ1]
    exact (set_idt_entry_spec _ 33 handler_address 0x08 0x8E).2.1 m hm
  refine ⟨eother, ?_, e33, ?_, rfl, rfl⟩
  · intro hz m hm
    rw [eother m hm, hz m]
  · intro h
    rw [e33]
    exact halves_recombine handler_address h

/-- Witness of C13 (amended): `init_idt()` on a table of zero entries. -/
theorem init_idt_table_witness :
    (init_idt zero_table 0x104000 0x100120).idt 32 = ⟨0, 0, 0, 0, 0⟩ ∧
    (init_idt zero_table 0x104000 0x100120).loaded =
      [{ limit := 2047, base := 0x104000 }] :=
  ⟨(init_idt_table zero_table 0x104000 0x100120).2.1
      (fun _ => rfl) 32 (by decide),
   (init_idt_table zero_table 0x104000 0x100120).2.2.2.2.1⟩

end VoidKernel

namespace VoidKernel

/-- C14: input buffer contents and bounds.  From the initial state (zeroed `key_buffer`,
write cursor 0), for every sequence of keyboard interrupts with n mapped press events:
when n ≤ 255, every write into `key_buffer` is at an index below 256 and afterwards
key_buffer[0..n) holds the mapped characters in arrival order, key_buffer[n] = 0 and
the write cursor equals n; the bound is tight, for when n = 256 the terminator of the
256th mapped press has been written at index 256, outside the buffer. -/
theorem input_buffer_bounds (s0 : Kernel) (events : List (Nat × List Nat))
    (hb : ∀ i, s0.key_buffer i = 0) (hc : s0.cursor_position = 0) (hw : s0.key_writes = []) :
    ((mapped_chars events).length ≤ 255 →
      (∀ k ∈ (keyboard_run s0 events).key_writes, k < 256) ∧
      (∀ i < (mapped_chars events).length,
        (keyboard_run s0 events).key_buffer i = (mapped_chars events).getD i 0) ∧
      (keyboard_run s0 events).key_buffer (mapped_chars events).length = 0 ∧
      (keyboard_run s0 events).cursor_position = (mapped_chars events).length) ∧
    ((mapped_chars events).length = 256 → 256 ∈ (keyboard_run s0 events).key_writes) := by
  have hinv : (mapped_chars events).length ≤ 65535 →
      KeyInv (keyboard_run s0 events) (mapped_chars events) := by
    intro hlen
    have := keyInv_run events s0 [] (keyInv_start s0 hb hc hw) (by simpa using hlen)
    simpa using this
  constructor
  · intro hn
    obtain ⟨h1, h2, h3, _⟩ := hinv (by omega)
    refine ⟨?_, ?_, ?_, h1⟩
    · intro k hk
      have := h3 k hk
      omega
    · intro i _
      exact h2 i
    · rw [h2, List.getD_eq_default _ _ (Nat.le_refl _)]
  · intro hn
    obtain ⟨_, _, _, h4⟩ := hinv (by omega)
    have hne : mapped_chars events ≠ [] := by
      intro h
      rw [h] at hn
      simp at hn
    have := h4 hne
    rw [hn] at this
    exact this

/-- Witness of C14: the press of 'a' (0x1E) followed by its release (0x9E). -/
theorem input_buffer_bounds_witness :
    ((∀ i, start.key_buffer i = 0) ∧ start.cursor_position = 0 ∧ start.key_writes = []) ∧
    (mapped_chars [(0x1E, []), (0x9E, [])]).length ≤ 255 ∧
    (keyboard_run start [(0x1E, []), (0x9E, [])]).key_buffer 0 = 97 ∧
    (keyboard_run start [(0x1E, []), (0x9E, [])]).key_buffer 1 = 0 ∧
    (keyboard_run start [(0x1E, []), (0x9E, [])]).cursor_position = 1 :=
  ⟨⟨fun _ => rfl, rfl, rfl⟩, by decide,
   ((input_buffer_bounds start [(0x1E, []), (0x9E, [])] (fun _ => rfl) rfl rfl).1
      (by decide)).2.1 0 (by decide),
   ((input_buffer_bounds start [(0x1E, []), (0x9E, [])] (fun _ => rfl) rfl rfl).1
      (by decide)).2.2.1,
   ((input_buffer_bounds start [(0x1E, []), (0x9E, [])] (fun _ => rfl) rfl rfl).1
      (by decide)).2.2.2⟩

/-- The tight case of C14 occurs: 256 presses of 'a' are 256 mapped press events, and
their last terminator is written at index 256. -/
theorem input_buffer_overrun :
    (mapped_chars (List.replicate 256 (0x1E, []))).length = 256 ∧
    256 ∈ (keyboard_run start (List.replicate 256 (0x1E, []))).key_writes := by
  have hlen : (mapped_chars (List.replicate 256 (0x1E, []))).length = 256 := by
    rw [mapped_chars_replicate 256 0x1E [] 97 (by decide), List.length_replicate]
  have hinv := keyInv_run (List.replicate 256 (0x1E, [])) start []
    (keyInv_start start (fun _ => rfl) rfl rfl) (by rw [hlen]; decide)
  obtain ⟨_, _, _, h4⟩ := hinv
  simp only [List.nil_append] at h4
  have hne : mapped_chars (List.replicate 256 (0x1E, [])) ≠ [] := by
    intro h
    rw [h] at hlen
    simp at hlen
  have := h4 hne
  rw [hlen] at this
  exact ⟨hlen, this⟩

end VoidKernel

namespace BrewKernel

open VoidKernel

/-- The layout of a full row of 80 characters, a newline and one more character ends on
row 1: the string fits on the screen without scrolling. -/
theorem full_row_fits (attr : Nat) :
    (reference_layout attr (List.replicate 80 88 ++ [10, 89])).row = 1 := by
  simp [reference_layout, Layout.place, List.replicate]

/-- C16, counterexample (the negation of the claim): there is no string of bytes, ending
in a newline or not, in which every newline comes after a line whose length is not a
multiple of 80, that fits on the screen without scrolling and for which, from a cleared
screen with both cursors at cell 0, `print_str` and `kernel_puts` store some character
at different cells.  Nothing is asked of an unfinished last line, so every string whose
every line has a length that is not a multiple of 80 is covered. -/
theorem consoles_differ_counterexample :
    ¬ ∃ (s0 : Console) (k0 : Kernel) (str : List Nat),
      s0.col = 0 ∧ s0.row = 0 ∧ k0.puts_cursor_position = 0 ∧
      (∀ c ∈ str, c < 256) ∧
      newlines_off_boundary 0 str ∧
      (reference_layout s0.color str).row < 25 ∧
      console_cells (print_clear s0) str ≠ kernel_cells k0 str := by
  rintro ⟨s0, k0, str, hcol, hrow, hk, hb, hnob, hfit, hne⟩
  exact hne (cells_agree_str s0 k0 str hcol hrow hk hb hnob hfit)

/-- C16, amended: the counter-based console (`kernel_puts`) and the row/col console
(`print_str`) are not equivalent on lines whose length is a positive multiple of the
row width: for the string of 80 'X', a newline and 'Y', which fits on the screen
without scrolling, started from a cleared screen with both cursors at cell 0,
`print_str` stores 'Y' at cell 80 and `kernel_puts` at cell 160.  On every string of
bytes that fits without scrolling and in which every newline comes after a line whose
length is not a multiple of 80 (the string may end in a newline, and its unfinished
last line may have any length) the two store every character at the same cell; in
particular on lines of such lengths joined by newlines, with or without a newline at
the end. -/
theorem consoles_differ_on_full_rows (s0 : Console) (k0 : Kernel)
    (hcol : s0.col = 0) (hrow : s0.row = 0) (hk : k0.puts_cursor_position = 0) :
    ((reference_layout s0.color (List.replicate 80 88 ++ [10, 89])).row < 25 ∧
      console_cells (print_clear s0) (List.replicate 80 88 ++ [10, 89]) =
        List.range' 0 80 ++ [80] ∧
      kernel_cells k0 (List.replicate 80 88 ++ [10, 89]) = List.range' 0 80 ++ [160] ∧
      console_cells (print_clear s0) (List.replicate 80 88 ++ [10, 89]) ≠
        kernel_cells k0 (List.replicate 80 88 ++ [10, 89])) ∧
    (∀ str : List Nat,
      (∀ c ∈ str, c < 256) →
      newlines_off_boundary 0 str →
      (reference_layout s0.color str).row < 25 →
      console_cells (print_clear s0) str = kernel_cells k0 str) ∧
    (∀ lines : List (List Nat),
      (∀ l ∈ lines, l.length % 80 ≠ 0 ∧ ∀ c ∈ l, c ≠ 10 ∧ c < 256) →
      (reference_layout s0.color (join_lines lines)).row < 25 →
      console_cells (print_clear s0) (join_lines lines) = kernel_cells k0 (join_lines lines)) ∧
    (∀ lines : List (List Nat), lines ≠ [] →
      (∀ l ∈ lines, l.length % 80 ≠ 0 ∧ ∀ c ∈ l, c ≠ 10 ∧ c < 256) →
      (reference_layout s0.color (join_lines lines ++ [10])).row < 25 →
      console_cells (print_clear s0) (join_lines lines ++ [10]) =
        kernel_cells k0 (join_lines lines ++ [10])) := by
  obtain ⟨a1, a2, _, _, _⟩ := print_clear_spec s0
  obtain ⟨b1, b2⟩ := cells_full_row (print_clear s0) k0 (by rw [a1, hcol]) (by rw [a2, hrow]) hk
  refine ⟨⟨by rw [full_row_fits]; decide, b1, b2, ?_⟩, ?_, ?_, ?_⟩
  · rw [b1, b2]
    intro h
    have := List.append_cancel_left h
    simp at this
  · intro str hb hnob hfit
    exact cells_agree_str s0 k0 str hcol hrow hk hb hnob hfit
  · intro lines hl hfit
    exact cells_agree_lines s0 k0 lines hcol hrow hk hl hfit
  · intro lines hne hl hfit
    refine cells_agree_str s0 k0 (join_lines lines ++ [10]) hcol hrow hk ?_
      (newlines_off_boundary_join_newline lines hne
        (fun l h => ⟨(hl l h).1, fun c hc => ((hl l h).2 c hc).1⟩)) hfit
    intro c hc
    rw [List.mem_append, List.mem_singleton] at hc
    rcases hc with hc | hc
    · exact join_lines_lt lines (fun l h x hx => ((hl l h).2 x hx).2) c hc
    · rw [hc]; decide

/-- Witness of C16 (amended): from the start states, the string of 80 'X', a newline
and 'Y' is placed differently; the string "Hi" with a newline at its end, and the lines
"Hi" and "!", are placed alike. -/
theorem consoles_differ_on_full_rows_witness :
    (boot.col = 0 ∧ boot.row = 0 ∧ start.puts_cursor_position = 0) ∧
    console_cells (print_clear boot) (List.replicate 80 88 ++ [10, 89]) ≠
      kernel_cells start (List.replicate 80 88 ++ [10, 89]) ∧
    (newlines_off_boundary 0 [72, 105, 10] ∧
      console_cells (print_clear boot) [72, 105, 10] = kernel_cells start [72, 105, 10]) ∧
    console_cells (print_clear boot) (join_lines [[72, 105], [33]]) =
      kernel_cells start (join_lines [[72, 105], [33]]) :=
  ⟨⟨rfl, rfl, rfl⟩,
   (consoles_differ_on_full_rows boot start rfl rfl rfl).1.2.2.2,
   ⟨by simp [newlines_off_boundary],
    (consoles_differ_on_full_rows boot start rfl rfl rfl).2.1 [72, 105, 10]
      (by decide) (by simp [newlines_off_boundary]) (by decide)⟩,
   (consoles_differ_on_full_rows boot start rfl rfl rfl).2.2.1 [[72, 105], [33]]
     (by decide) (by decide)⟩

end BrewKernel
